import Mathlib

/-
  A verification development for the dependency-closure traversal and
  emission engine of the `typescript-type-def` crate (file `src/emit.rs`).

  The type-descriptor data model (crate module `type_expr`) is not part of
  the sources under verification; its shape is reconstructed from the way
  `emit.rs` destructures it and from the specification's data-model section.
  All emitters, the closure walker `EmitCtx::emit_type`, `EmitCtx::emit_def`
  and the driver `write_definition_file` are translated from `src/emit.rs`.

  The output sink (`dyn io::Write`) is modelled by a state holding the text
  written so far together with a write index; a run is parameterized by a
  function `fa : Nat → Bool` telling which writes fail (the n-th `write!`
  call fails iff `fa n`).  `fun _ => false` is the always-succeeding sink.
  Rust's recursion is modelled with an explicit fuel parameter; exhaustion
  is the distinguished result `EmitErr.fuelOut`, and the development proves
  that with the fuel used by `writeDefinitionFile` it never occurs.

  The state also carries a ghost field `trace`: the list of `TypeId`s whose
  `Defined` declarations have been emitted, in emission order, appended
  exactly where `emit_def` emits a declaration (next to the `stats` counter
  increment).  It lets theorems speak about "the declarations in the output".
-/

namespace TsTypeDef

/-- Documentation text attached to a node (newtype over a string). -/
structure Docs where
  text : String

/-- An identifier (newtype over a string; the code performs no validation). -/
structure Ident where
  name : String
deriving DecidableEq

/-- A string-literal type: optional docs and the exact literal value. -/
structure TypeString where
  docs : Option Docs
  value : String

/- Modelled from the spec (section 3) and the destructuring in `emit.rs`:
   the `type_expr` data model.  `Ref` carries the referenced type's complete
   `TypeInfo` constant (as `TypeExpr::Ref(&T::INFO)` does); the emitter for a
   `Ref` of a `Defined` type reads only its `name`. -/
mutual

inductive TypeExpr where
  | Ref : TypeInfo → TypeExpr
  | Name : TypeName → TypeExpr
  | String : TypeString → TypeExpr
  | Tuple : Tuple → TypeExpr
  | Object : Object → TypeExpr
  | Array : Array → TypeExpr
  | Union : Union → TypeExpr
  | Intersection : Intersection → TypeExpr

inductive TypeInfo where
  | Native : NativeTypeInfo → TypeInfo
  | Defined : DefinedTypeInfo → TypeInfo

inductive NativeTypeInfo where
  | mk : TypeExpr → NativeTypeInfo

inductive DefinedTypeInfo where
  | mk : Option Docs → TypeName → TypeExpr → DefinedTypeInfo

inductive TypeName where
  | mk : Option Docs → List Ident → Ident → List TypeExpr → TypeName

inductive Tuple where
  | mk : Option Docs → List TypeExpr → Tuple

inductive Object where
  | mk : Option Docs → List ObjectField → Object

inductive ObjectField where
  | mk : Option Docs → Ident → Bool → TypeExpr → ObjectField

inductive Array where
  | mk : Option Docs → TypeExpr → Array

inductive Union where
  | mk : Option Docs → List TypeExpr → Union

inductive Intersection where
  | mk : Option Docs → List TypeExpr → Intersection

end

/-- The `path` field of a `TypeName`. -/
def TypeName.path : TypeName → List Ident
  | TypeName.mk _ p _ _ => p

/-- The `name` field of a `TypeName`. -/
def TypeName.name : TypeName → Ident
  | TypeName.mk _ _ n _ => n

/-- Errors of a run: a sink write failure, or exhaustion of the (artificial)
recursion fuel of the embedding. -/
inductive EmitErr where
  | writeFailed
  | fuelOut
deriving DecidableEq

/-- The mutable context of one emission run: the text written to the sink so
far, the visited set of `TypeId`s, the statistics counter, the ghost trace of
emitted `Defined` declarations, and the index of the next sink write. -/
structure EmitSt where
  out : String
  visited : Finset Nat
  stats : Nat
  trace : List Nat
  wix : Nat
deriving DecidableEq

/-- Which sink writes fail: the n-th write of the run fails iff `fa n`. -/
def FailFn := Nat → Bool

/-- The always-succeeding sink. -/
def allOk : FailFn := fun _ => false

/-- A state transformer that may fail (the `io::Result<()>` shape). -/
abbrev EmitM := EmitSt → Except EmitErr EmitSt

/-- One `write!`/`writeln!` call to the sink. -/
def write (fa : FailFn) (s : String) : EmitM := fun st =>
  if fa st.wix then Except.error EmitErr.writeFailed
  else Except.ok { st with out := st.out ++ s, wix := st.wix + 1 }

/-- Sequencing with `?`-propagation of errors. -/
def andThen (x : Except EmitErr EmitSt) (f : EmitM) : Except EmitErr EmitSt :=
  match x with
  | Except.ok st => f st
  | Except.error e => Except.error e

/-- Options of `write_definition_file`. -/
structure DefinitionFileOptions where
  header : Option String
  root_namespace : String

/-- The `Default` instance of `DefinitionFileOptions`. -/
def defaultOptions : DefinitionFileOptions :=
  { header := some "AUTO-GENERATED by typescript-type-def", root_namespace := "types" }

/-- Split a character list at newline characters (every piece, including a
trailing empty one). -/
def splitNl : List Char → List (List Char)
  | [] => [[]]
  | c :: rest =>
    if c = '\n' then [] :: splitNl rest
    else
      match splitNl rest with
      | [] => [[c]]
      | l :: ls => (c :: l) :: ls

/-- Drop one trailing carriage return. -/
def stripCr (l : List Char) : List Char :=
  if l.getLast? = some '\x0d' then l.dropLast else l

/-- Rust's `str::lines`: split on `\n`, drop a final empty piece, strip one
trailing `\r` from each line. -/
def rustLines (s : String) : List String :=
  let parts := splitNl s.data
  let parts := if parts.getLast? = some [] then parts.dropLast else parts
  parts.map (fun l => String.mk (stripCr l))

/-- One or two lowercase hex digits (enough for the escaped control range). -/
def hexChar (n : Nat) : Char := if n < 10 then Char.ofNat (48 + n) else Char.ofNat (87 + n)

/-- Hex rendering for the control-character range. -/
def hexStr (n : Nat) : String :=
  if n < 16 then String.mk [hexChar n] else String.mk [hexChar (n / 16), hexChar (n % 16)]

/-- Escaping of one character as in Rust's `{:?}` (Debug) for strings. -/
def rustEscapeChar (c : Char) : String :=
  if c = '"' then "\\\""
  else if c = '\\' then "\\\\"
  else if c = '\n' then "\\n"
  else if c = '\x0d' then "\\r"
  else if c = '\t' then "\\t"
  else if c.toNat < 32 || c.toNat == 127 then "\\u\x7b" ++ hexStr c.toNat ++ "\x7d"
  else String.mk [c]

/-- Concatenation of a list of strings. -/
def sJoin : List String → String
  | [] => ""
  | s :: rest => s ++ sJoin rest

/-- Rust's `write!(w, "{:?}", value)` for a string value. -/
def rustDebugString (s : String) : String :=
  "\"" ++ sJoin (s.data.map rustEscapeChar) ++ "\""

/-- The line loop of `impl Emit for Docs`. -/
def emitDocsLines (fa : FailFn) : List String → EmitM
  | [] => fun st => Except.ok st
  | l :: ls => fun st => andThen (write fa (" * " ++ l ++ "\n") st) (emitDocsLines fa ls)

/-- `impl Emit for Docs`. -/
def emitDocs (fa : FailFn) (d : Docs) : EmitM := fun st =>
  andThen (write fa "\n" st) (fun st =>
  andThen (write fa "/**\n" st) (fun st =>
  andThen (emitDocsLines fa (rustLines d.text) st) (fun st =>
  write fa " */\n" st)))

/-- `impl Emit for Option<T>` at `Docs`. -/
def emitDocsOpt (fa : FailFn) : Option Docs → EmitM
  | some d => emitDocs fa d
  | none => fun st => Except.ok st

/-- `impl Emit for Ident`. -/
def emitIdent (fa : FailFn) (i : Ident) : EmitM := write fa i.name

/-- `impl Emit for TypeString`. -/
def emitTypeString (fa : FailFn) (ts : TypeString) : EmitM := fun st =>
  andThen (emitDocsOpt fa ts.docs st) (fun st => write fa (rustDebugString ts.value) st)

/-- The path loop of `impl Emit for TypeName`: each segment followed by `.`. -/
def emitPathDots (fa : FailFn) : List Ident → EmitM
  | [] => fun st => Except.ok st
  | p :: ps => fun st =>
    andThen (emitIdent fa p st) (fun st =>
    andThen (write fa "." st) (fun st => emitPathDots fa ps st))

mutual

/-- `impl Emit for TypeExpr`. -/
def emitExpr (fa : FailFn) (opts : DefinitionFileOptions) : TypeExpr → EmitM
  | TypeExpr.Ref ti =>
    match ti with
    | TypeInfo.Native (NativeTypeInfo.mk d) => emitExpr fa opts d
    | TypeInfo.Defined (DefinedTypeInfo.mk _ name _) => fun st =>
      andThen (write fa (opts.root_namespace ++ ".") st) (fun st =>
      emitTypeName fa opts name st)
  | TypeExpr.Name tn => emitTypeName fa opts tn
  | TypeExpr.String ts => emitTypeString fa ts
  | TypeExpr.Tuple t => emitTuple fa opts t
  | TypeExpr.Object o => emitObject fa opts o
  | TypeExpr.Array a => emitArray fa opts a
  | TypeExpr.Union u => emitUnion fa opts u
  | TypeExpr.Intersection i => emitIntersection fa opts i

/-- `impl Emit for TypeName`. -/
def emitTypeName (fa : FailFn) (opts : DefinitionFileOptions) : TypeName → EmitM
  | TypeName.mk docs path name generics => fun st =>
    andThen (emitDocsOpt fa docs st) (fun st =>
    andThen (emitPathDots fa path st) (fun st =>
    andThen (emitIdent fa name st) (fun st =>
    if generics.isEmpty then Except.ok st
    else
      andThen (write fa "<" st) (fun st =>
      andThen (emitExprListSep fa opts "," generics true st) (fun st =>
      write fa ">" st)))))

/-- The first-flag separator loop shared by tuples, unions, intersections and
generics lists. -/
def emitExprListSep (fa : FailFn) (opts : DefinitionFileOptions) (sep : String) :
    List TypeExpr → Bool → EmitM
  | [], _ => fun st => Except.ok st
  | e :: es, first => fun st =>
    andThen (if first then Except.ok st else write fa sep st) (fun st =>
    andThen (emitExpr fa opts e st) (fun st =>
    emitExprListSep fa opts sep es false st))

/-- `impl Emit for Tuple`. -/
def emitTuple (fa : FailFn) (opts : DefinitionFileOptions) : Tuple → EmitM
  | Tuple.mk docs elements => fun st =>
    andThen (emitDocsOpt fa docs st) (fun st =>
    andThen (write fa "[" st) (fun st =>
    andThen (emitExprListSep fa opts "," elements true st) (fun st =>
    write fa "]" st)))

/-- `impl Emit for Object`. -/
def emitObject (fa : FailFn) (opts : DefinitionFileOptions) : Object → EmitM
  | Object.mk docs fields => fun st =>
    andThen (emitDocsOpt fa docs st) (fun st =>
    andThen (write fa "\x7b" st) (fun st =>
    andThen (emitObjectFields fa opts fields st) (fun st =>
    write fa "\x7d" st)))

/-- The field loop of `impl Emit for Object`. -/
def emitObjectFields (fa : FailFn) (opts : DefinitionFileOptions) : List ObjectField → EmitM
  | [] => fun st => Except.ok st
  | ObjectField.mk docs name optional ty :: rest => fun st =>
    andThen (emitDocsOpt fa docs st) (fun st =>
    andThen (emitIdent fa name st) (fun st =>
    andThen (if optional then write fa "?" st else Except.ok st) (fun st =>
    andThen (write fa ":" st) (fun st =>
    andThen (emitExpr fa opts ty st) (fun st =>
    andThen (write fa ";" st) (fun st =>
    emitObjectFields fa opts rest st))))))

/-- `impl Emit for Array`. -/
def emitArray (fa : FailFn) (opts : DefinitionFileOptions) : Array → EmitM
  | Array.mk docs item => fun st =>
    andThen (emitDocsOpt fa docs st) (fun st =>
    andThen (write fa "(" st) (fun st =>
    andThen (emitExpr fa opts item st) (fun st =>
    write fa ")[]" st)))

/-- `impl Emit for Union`. -/
def emitUnion (fa : FailFn) (opts : DefinitionFileOptions) : Union → EmitM
  | Union.mk docs members => fun st =>
    andThen (emitDocsOpt fa docs st) (fun st =>
    if members.isEmpty then write fa "never" st
    else
      andThen (write fa "(" st) (fun st =>
      andThen (emitExprListSep fa opts "|" members true st) (fun st =>
      write fa ")" st)))

/-- `impl Emit for Intersection`. -/
def emitIntersection (fa : FailFn) (opts : DefinitionFileOptions) : Intersection → EmitM
  | Intersection.mk docs members => fun st =>
    andThen (emitDocsOpt fa docs st) (fun st =>
    if members.isEmpty then write fa "any" st
    else
      andThen (write fa "(" st) (fun st =>
      andThen (emitExprListSep fa opts "&" members true st) (fun st =>
      write fa ")" st)))

end

/-- The namespace-path loop of `EmitCtx::emit_def`: segments separated by `.`
(the separator is written before every segment but the first). -/
def emitNsPath (fa : FailFn) : List Ident → Bool → EmitM
  | [], _ => fun st => Except.ok st
  | p :: ps, first => fun st =>
    andThen (if first then Except.ok st else write fa "." st) (fun st =>
    andThen (emitIdent fa p st) (fun st => emitNsPath fa ps false st))

/-- `EmitCtx::emit_def` for the type with identity `id` and descriptor
`info = T::INFO`.  The ghost `trace` is appended next to the `stats`
increment, marking the emission of one `Defined` declaration. -/
def emitDef (fa : FailFn) (opts : DefinitionFileOptions) (id : Nat) (info : TypeInfo) :
    EmitM := fun st =>
  match info with
  | TypeInfo.Native _ => Except.ok st
  | TypeInfo.Defined (DefinedTypeInfo.mk docs name defExpr) =>
    match name with
    | TypeName.mk ndocs path nm gens =>
      let st := { st with stats := st.stats + 1, trace := st.trace ++ [id] }
      andThen (emitDocsOpt fa docs st) (fun st =>
      andThen
        (if path.isEmpty then Except.ok st
         else
           andThen (write fa "export namespace " st) (fun st =>
           andThen (emitNsPath fa path true st) (fun st => write fa "\x7b" st)))
        (fun st =>
      andThen (write fa "export type " st) (fun st =>
      andThen (emitTypeName fa opts (TypeName.mk ndocs [] nm gens) st) (fun st =>
      andThen (write fa "=" st) (fun st =>
      andThen (emitExpr fa opts defExpr st) (fun st =>
      andThen (write fa ";" st) (fun st =>
      andThen (if path.isEmpty then Except.ok st else write fa "\x7d" st) (fun st =>
      write fa "\n" st))))))))

/-- Modelled from the spec (sections 4.3 and 6): one participating type,
identified by a `TypeId` (a `Nat`): its ordered direct-dependency list
(`T::Deps`) and its constant descriptor (`T::INFO`). -/
structure TypeDefn where
  deps : List Nat
  info : TypeInfo

/-- Modelled from the spec: the universe of participating types of one
program, as a finite table of type definitions (ids below `size`). -/
structure Env where
  size : Nat
  defn : Nat → TypeDefn

/-- Sequential traversal of a dependency list (`Deps::emit_each`, which calls
`ctx.emit_type::<Ti>()` for each dependency in declared order). -/
def emitList (f : Nat → EmitM) : List Nat → EmitM
  | [] => fun st => Except.ok st
  | d :: ds => fun st => andThen (f d st) (emitList f ds)

/-- `EmitCtx::emit_type::<T>`: the dependency-closure walker.  The fuel
parameter makes the recursion structural; `writeDefinitionFile` supplies
`env.size + 1`, proven sufficient below. -/
def emitType (fa : FailFn) (opts : DefinitionFileOptions) (env : Env) :
    Nat → Nat → EmitM
  | 0, _ => fun _ => Except.error EmitErr.fuelOut
  | fuel + 1, id => fun st =>
    if id ∈ st.visited then Except.ok st
    else
      andThen
        (emitList (fun d => emitType fa opts env fuel d) (env.defn id).deps
          { st with visited := insert id st.visited })
        (emitDef fa opts id (env.defn id).info)

/-- The fresh context of one run (`EmitCtx::new`). -/
def initSt : EmitSt := { out := "", visited := ∅, stats := 0, trace := [], wix := 0 }

/-- The header-comment loop of `write_definition_file`. -/
def emitHeaderLines (fa : FailFn) : List String → EmitM
  | [] => fun st => Except.ok st
  | l :: ls => fun st => andThen (write fa ("// " ++ l ++ "\n") st) (emitHeaderLines fa ls)

/-- `write_definition_file` for the root type `root`: returns the `Stats`
count together with the final sink/ghost state. -/
def writeDefinitionFile (fa : FailFn) (env : Env) (opts : DefinitionFileOptions)
    (root : Nat) : Except EmitErr (Nat × EmitSt) :=
  match
    andThen
      (match opts.header with
       | some h => andThen (emitHeaderLines fa (rustLines h) initSt) (fun st => write fa "\n" st)
       | none => Except.ok initSt)
      (fun st =>
      andThen (write fa ("export default " ++ opts.root_namespace ++ ";\n") st) (fun st =>
      andThen (write fa ("export namespace " ++ opts.root_namespace ++ "\x7b\n") st) (fun st =>
      emitType fa opts env (env.size + 1) root st)))
  with
  | Except.error e => Except.error e
  | Except.ok st =>
    match write fa "\x7d\n" st with
    | Except.error e => Except.error e
    | Except.ok stF => Except.ok (st.stats, stF)

/-- One dependency edge: `b` is among the declared dependencies of `a`. -/
def step (env : Env) (a b : Nat) : Prop := b ∈ (env.defn a).deps

/-- Reachability along dependency edges (reflexive-transitive). -/
def Reaches (env : Env) : Nat → Nat → Prop := Relation.ReflTransGen (step env)

/-- Whether the descriptor of `id` is a `Defined` one. -/
def isDefinedB (env : Env) (id : Nat) : Bool :=
  match (env.defn id).info with
  | TypeInfo.Defined _ => true
  | TypeInfo.Native _ => false

/-- Wellformedness of a type universe: dependency ids stay below `size`. -/
def EnvWF (env : Env) : Prop :=
  ∀ i, i < env.size → ∀ d ∈ (env.defn i).deps, d < env.size

/-- All writes with index in `[start, start + n)` succeed. -/
def okWindow (fa : FailFn) (start : Nat) : Nat → Bool
  | 0 => true
  | n + 1 => (!fa start) && okWindow fa (start + 1) n

theorem okWindow_allOk (start n : Nat) : okWindow allOk start n = true := by
  induction n generalizing start with
  | zero => rfl
  | succ n ih => simp [okWindow, allOk, ih]

theorem okWindow_add (fa : FailFn) (s m n : Nat) :
    okWindow fa s (m + n) = (okWindow fa s m && okWindow fa (s + m) n) := by
  induction m generalizing s with
  | zero => simp [okWindow]
  | succ m ih =>
    have h1 : m + 1 + n = (m + n) + 1 := by omega
    rw [h1]
    simp only [okWindow, ih (s + 1)]
    have h2 : s + 1 + m = s + (m + 1) := by omega
    rw [h2, Bool.and_assoc]

theorem str_empty_append (s : String) : "" ++ s = s := by
  cases s with
  | mk d => rfl

theorem str_append_empty (s : String) : s ++ "" = s := by
  cases s with
  | mk d => exact congrArg String.mk (List.append_nil d)

theorem str_append_assoc (a b c : String) : a ++ b ++ c = a ++ (b ++ c) := by
  cases a with
  | mk x =>
    cases b with
    | mk y =>
      cases c with
      | mk z => exact congrArg String.mk (List.append_assoc x y z)

theorem sJoin_append (l1 l2 : List String) : sJoin (l1 ++ l2) = sJoin l1 ++ sJoin l2 := by
  induction l1 with
  | nil => simp [sJoin, str_empty_append]
  | cons s rest ih => simp [sJoin, ih, str_append_assoc]

/-- Characterization of an emitter with a fixed chunk list: it performs one
sink write per chunk, in order, appends their concatenation to the output,
succeeds iff no write in its window fails, and touches nothing else. -/
def EmChar (f : FailFn → EmitM) (c : List String) : Prop :=
  ∀ fa st, f fa st =
    if okWindow fa st.wix c.length then
      Except.ok { st with out := st.out ++ sJoin c, wix := st.wix + c.length }
    else Except.error EmitErr.writeFailed

theorem emChar_write (s : String) : EmChar (fun fa => write fa s) [s] := by
  intro fa st
  simp only [write, List.length_cons, List.length_nil, okWindow, Bool.and_true]
  cases h : fa st.wix with
  | false => simp [sJoin, str_append_empty]
  | true => simp

theorem emChar_skip : EmChar (fun _ st => Except.ok st) [] := by
  intro fa st
  simp [okWindow, sJoin, str_append_empty]

theorem emChar_seq {f g : FailFn → EmitM} {cf cg : List String}
    (hf : EmChar f cf) (hg : EmChar g cg) :
    EmChar (fun fa st => andThen (f fa st) (g fa)) (cf ++ cg) := by
  intro fa st
  show andThen (f fa st) (g fa) = _
  rw [hf fa st]
  simp only [List.length_append, okWindow_add]
  cases hA : okWindow fa st.wix cf.length with
  | false => simp [andThen]
  | true =>
    simp only [Bool.true_and, if_true, andThen]
    rw [hg fa]
    cases hB : okWindow fa (st.wix + cf.length) cg.length with
    | false => simp
    | true =>
      simp only [if_true]
      congr 1
      simp [sJoin_append, str_append_assoc, Nat.add_assoc]

theorem emChar_congr {f g : FailFn → EmitM} {c : List String}
    (h : EmChar f c) (hfg : ∀ fa st, g fa st = f fa st) : EmChar g c := by
  intro fa st
  rw [hfg fa st, h fa st]

/-- The chunk written per line of a doc comment. -/
def docsLinesChunks : List String → List String
  | [] => []
  | l :: ls => (" * " ++ l ++ "\n") :: docsLinesChunks ls

/-- The chunks written by `emitDocs`. -/
def docsChunks (d : Docs) : List String :=
  "\n" :: ("/**\n" :: (docsLinesChunks (rustLines d.text) ++ [" */\n"]))

/-- The chunks written by `emitDocsOpt`. -/
def docsOptChunks : Option Docs → List String
  | some d => docsChunks d
  | none => []

/-- The chunks written by `emitPathDots`. -/
def pathDotsChunks : List Ident → List String
  | [] => []
  | p :: ps => p.name :: ("." :: pathDotsChunks ps)

/-- The chunks written by `emitNsPath`. -/
def nsPathChunks : List Ident → Bool → List String
  | [], _ => []
  | p :: ps, first => (if first then [] else ["."]) ++ (p.name :: nsPathChunks ps false)

/-- The chunks written by `emitHeaderLines`. -/
def headerLinesChunks : List String → List String
  | [] => []
  | l :: ls => ("// " ++ l ++ "\n") :: headerLinesChunks ls

theorem emitDocsLines_char (ls : List String) :
    EmChar (fun fa => emitDocsLines fa ls) (docsLinesChunks ls) := by
  induction ls with
  | nil => exact emChar_skip
  | cons l rest ih =>
    have h := emChar_seq (emChar_write (" * " ++ l ++ "\n")) ih
    exact emChar_congr h (fun fa st => rfl)

theorem emitDocs_char (d : Docs) : EmChar (fun fa => emitDocs fa d) (docsChunks d) := by
  have h := emChar_seq (emChar_write "\n")
    (emChar_seq (emChar_write "/**\n")
      (emChar_seq (emitDocsLines_char (rustLines d.text)) (emChar_write " */\n")))
  exact emChar_congr h (fun fa st => rfl)

theorem emitDocsOpt_char (d : Option Docs) :
    EmChar (fun fa => emitDocsOpt fa d) (docsOptChunks d) := by
  cases d with
  | some d => exact emitDocs_char d
  | none => exact emChar_skip

theorem emitIdent_char (i : Ident) : EmChar (fun fa => emitIdent fa i) [i.name] :=
  emChar_write i.name

theorem emitTypeString_char (ts : TypeString) :
    EmChar (fun fa => emitTypeString fa ts)
      (docsOptChunks ts.docs ++ [rustDebugString ts.value]) := by
  have h := emChar_seq (emitDocsOpt_char ts.docs) (emChar_write (rustDebugString ts.value))
  exact emChar_congr h (fun fa st => rfl)

theorem emitPathDots_char (ps : List Ident) :
    EmChar (fun fa => emitPathDots fa ps) (pathDotsChunks ps) := by
  induction ps with
  | nil => exact emChar_skip
  | cons p rest ih =>
    have h := emChar_seq (emitIdent_char p) (emChar_seq (emChar_write ".") ih)
    exact emChar_congr h (fun fa st => rfl)

theorem emitNsPath_char (ps : List Ident) (first : Bool) :
    EmChar (fun fa => emitNsPath fa ps first) (nsPathChunks ps first) := by
  induction ps generalizing first with
  | nil => exact emChar_skip
  | cons p rest ih =>
    cases first with
    | true =>
      have h := emChar_seq (emitIdent_char p) (ih false)
      refine emChar_congr ?_ (fun fa st => rfl)
      simpa [nsPathChunks] using h
    | false =>
      have h := emChar_seq (emChar_write ".") (emChar_seq (emitIdent_char p) (ih false))
      refine emChar_congr ?_ (fun fa st => rfl)
      simpa [nsPathChunks] using h

theorem emitHeaderLines_char (ls : List String) :
    EmChar (fun fa => emitHeaderLines fa ls) (headerLinesChunks ls) := by
  induction ls with
  | nil => exact emChar_skip
  | cons l rest ih =>
    have h := emChar_seq (emChar_write ("// " ++ l ++ "\n")) ih
    exact emChar_congr h (fun fa st => rfl)

mutual

/-- The chunks written by `emitExpr`. -/
def exprChunks (opts : DefinitionFileOptions) : TypeExpr → List String
  | TypeExpr.Ref ti =>
    match ti with
    | TypeInfo.Native (NativeTypeInfo.mk d) => exprChunks opts d
    | TypeInfo.Defined (DefinedTypeInfo.mk _ name _) =>
      (opts.root_namespace ++ ".") :: nameChunks opts name
  | TypeExpr.Name tn => nameChunks opts tn
  | TypeExpr.String ts => docsOptChunks ts.docs ++ [rustDebugString ts.value]
  | TypeExpr.Tuple (Tuple.mk docs elements) =>
    docsOptChunks docs ++ ("[" :: (exprListSepChunks opts "," elements true ++ ["]"]))
  | TypeExpr.Object (Object.mk docs fields) =>
    docsOptChunks docs ++ ("\x7b" :: (objectFieldsChunks opts fields ++ ["\x7d"]))
  | TypeExpr.Array (Array.mk docs item) =>
    docsOptChunks docs ++ ("(" :: (exprChunks opts item ++ [")[]"]))
  | TypeExpr.Union (Union.mk docs members) =>
    docsOptChunks docs ++
      (if members.isEmpty then ["never"]
       else "(" :: (exprListSepChunks opts "|" members true ++ [")"]))
  | TypeExpr.Intersection (Intersection.mk docs members) =>
    docsOptChunks docs ++
      (if members.isEmpty then ["any"]
       else "(" :: (exprListSepChunks opts "&" members true ++ [")"]))

/-- The chunks written by `emitTypeName`. -/
def nameChunks (opts : DefinitionFileOptions) : TypeName → List String
  | TypeName.mk docs path name generics =>
    docsOptChunks docs ++ (pathDotsChunks path ++ (name.name ::
      (if generics.isEmpty then []
       else "<" :: (exprListSepChunks opts "," generics true ++ [">"]))))

/-- The chunks written by `emitExprListSep`. -/
def exprListSepChunks (opts : DefinitionFileOptions) (sep : String) :
    List TypeExpr → Bool → List String
  | [], _ => []
  | e :: es, first =>
    (if first then [] else [sep]) ++
      (exprChunks opts e ++ exprListSepChunks opts sep es false)

/-- The chunks written by `emitObjectFields`. -/
def objectFieldsChunks (opts : DefinitionFileOptions) : List ObjectField → List String
  | [] => []
  | ObjectField.mk docs name optional ty :: rest =>
    docsOptChunks docs ++ (name.name ::
      ((if optional then ["?"] else []) ++ (":" ::
        (exprChunks opts ty ++ (";" :: objectFieldsChunks opts rest)))))

end

mutual

theorem emitExpr_char (opts : DefinitionFileOptions) :
    (e : TypeExpr) → EmChar (fun fa => emitExpr fa opts e) (exprChunks opts e)
  | TypeExpr.Ref (TypeInfo.Native (NativeTypeInfo.mk d)) => by
    have h := emitExpr_char opts d
    exact emChar_congr h (fun fa st => rfl)
  | TypeExpr.Ref (TypeInfo.Defined (DefinedTypeInfo.mk dd name de)) => by
    have h := emChar_seq (emChar_write (opts.root_namespace ++ "."))
      (emitTypeName_char opts name)
    exact emChar_congr h (fun fa st => rfl)
  | TypeExpr.Name tn => by
    have h := emitTypeName_char opts tn
    exact emChar_congr h (fun fa st => rfl)
  | TypeExpr.String ts => by
    have h := emitTypeString_char ts
    exact emChar_congr h (fun fa st => rfl)
  | TypeExpr.Tuple (Tuple.mk docs elements) => by
    have h := emChar_seq (emitDocsOpt_char docs)
      (emChar_seq (emChar_write "[")
        (emChar_seq (emitExprListSep_char opts "," elements true) (emChar_write "]")))
    exact emChar_congr h (fun fa st => rfl)
  | TypeExpr.Object (Object.mk docs fields) => by
    have h := emChar_seq (emitDocsOpt_char docs)
      (emChar_seq (emChar_write "\x7b")
        (emChar_seq (emitObjectFields_char opts fields) (emChar_write "\x7d")))
    exact emChar_congr h (fun fa st => rfl)
  | TypeExpr.Array (Array.mk docs item) => by
    have h := emChar_seq (emitDocsOpt_char docs)
      (emChar_seq (emChar_write "(")
        (emChar_seq (emitExpr_char opts item) (emChar_write ")[]")))
    exact emChar_congr h (fun fa st => rfl)
  | TypeExpr.Union (Union.mk docs members) => by
    have hbr : EmChar
        (fun fa st =>
          if members.isEmpty then write fa "never" st
          else
            andThen (write fa "(" st) (fun st =>
            andThen (emitExprListSep fa opts "|" members true st) (fun st =>
            write fa ")" st)))
        (if members.isEmpty then ["never"]
         else "(" :: (exprListSepChunks opts "|" members true ++ [")"])) := by
      cases hm : members.isEmpty with
      | true => simpa using emChar_write "never"
      | false =>
        simpa using emChar_seq (emChar_write "(")
          (emChar_seq (emitExprListSep_char opts "|" members true) (emChar_write ")"))
    have h := emChar_seq (emitDocsOpt_char docs) hbr
    exact emChar_congr h (fun fa st => rfl)
  | TypeExpr.Intersection (Intersection.mk docs members) => by
    have hbr : EmChar
        (fun fa st =>
          if members.isEmpty then write fa "any" st
          else
            andThen (write fa "(" st) (fun st =>
            andThen (emitExprListSep fa opts "&" members true st) (fun st =>
            write fa ")" st)))
        (if members.isEmpty then ["any"]
         else "(" :: (exprListSepChunks opts "&" members true ++ [")"])) := by
      cases hm : members.isEmpty with
      | true => simpa using emChar_write "any"
      | false =>
        simpa using emChar_seq (emChar_write "(")
          (emChar_seq (emitExprListSep_char opts "&" members true) (emChar_write ")"))
    have h := emChar_seq (emitDocsOpt_char docs) hbr
    exact emChar_congr h (fun fa st => rfl)

theorem emitTypeName_char (opts : DefinitionFileOptions) :
    (tn : TypeName) → EmChar (fun fa => emitTypeName fa opts tn) (nameChunks opts tn)
  | TypeName.mk docs path name generics => by
    have hbr : EmChar
        (fun fa st =>
          if generics.isEmpty then Except.ok st
          else
            andThen (write fa "<" st) (fun st =>
            andThen (emitExprListSep fa opts "," generics true st) (fun st =>
            write fa ">" st)))
        (if generics.isEmpty then []
         else "<" :: (exprListSepChunks opts "," generics true ++ [">"])) := by
      cases hg : generics.isEmpty with
      | true => simpa using emChar_skip
      | false =>
        simpa using emChar_seq (emChar_write "<")
          (emChar_seq (emitExprListSep_char opts "," generics true) (emChar_write ">"))
    have h := emChar_seq (emitDocsOpt_char docs)
      (emChar_seq (emitPathDots_char path) (emChar_seq (emitIdent_char name) hbr))
    exact emChar_congr h (fun fa st => rfl)

theorem emitExprListSep_char (opts : DefinitionFileOptions) (sep : String) :
    (es : List TypeExpr) → (first : Bool) →
      EmChar (fun fa => emitExprListSep fa opts sep es first)
        (exprListSepChunks opts sep es first)
  | [], _ => emChar_skip
  | e :: es, first => by
    have hfst : EmChar (fun fa st => if first then Except.ok st else write fa sep st)
        (if first then [] else [sep]) := by
      cases first with
      | true => simpa using emChar_skip
      | false => simpa using emChar_write sep
    have h := emChar_seq hfst
      (emChar_seq (emitExpr_char opts e) (emitExprListSep_char opts sep es false))
    exact emChar_congr h (fun fa st => rfl)

theorem emitObjectFields_char (opts : DefinitionFileOptions) :
    (fs : List ObjectField) →
      EmChar (fun fa => emitObjectFields fa opts fs) (objectFieldsChunks opts fs)
  | [] => emChar_skip
  | ObjectField.mk docs name optional ty :: rest => by
    have hopt : EmChar (fun fa st => if optional then write fa "?" st else Except.ok st)
        (if optional then ["?"] else []) := by
      cases optional with
      | true => simpa using emChar_write "?"
      | false => simpa using emChar_skip
    have h := emChar_seq (emitDocsOpt_char docs)
      (emChar_seq (emitIdent_char name)
        (emChar_seq hopt
          (emChar_seq (emChar_write ":")
            (emChar_seq (emitExpr_char opts ty)
              (emChar_seq (emChar_write ";") (emitObjectFields_char opts rest))))))
    exact emChar_congr h (fun fa st => rfl)

end

/-- The chunks written by `emitDef` (empty for a `Native` descriptor). -/
def defChunks (opts : DefinitionFileOptions) : TypeInfo → List String
  | TypeInfo.Native _ => []
  | TypeInfo.Defined (DefinedTypeInfo.mk docs (TypeName.mk ndocs path nm gens) defExpr) =>
    docsOptChunks docs ++
      ((if path.isEmpty then []
        else "export namespace " :: (nsPathChunks path true ++ ["\x7b"])) ++
       ("export type " :: (nameChunks opts (TypeName.mk ndocs [] nm gens) ++
        ("=" :: (exprChunks opts defExpr ++
         (";" :: ((if path.isEmpty then [] else ["\x7d"]) ++ ["\n"])))))))

/-- The declaration text contributed to the output by the type `id`. -/
def declText (opts : DefinitionFileOptions) (env : Env) (id : Nat) : String :=
  sJoin (defChunks opts (env.defn id).info)

theorem emitDef_native (fa : FailFn) (opts : DefinitionFileOptions) (id : Nat)
    (ni : NativeTypeInfo) (st : EmitSt) :
    emitDef fa opts id (TypeInfo.Native ni) st = Except.ok st := rfl

theorem emitDef_defined_char (fa : FailFn) (opts : DefinitionFileOptions) (id : Nat)
    (docs : Option Docs) (ndocs : Option Docs) (path : List Ident) (nm : Ident)
    (gens : List TypeExpr) (defExpr : TypeExpr) (st : EmitSt) :
    emitDef fa opts id
      (TypeInfo.Defined (DefinedTypeInfo.mk docs (TypeName.mk ndocs path nm gens) defExpr)) st =
    (if okWindow fa st.wix
        (defChunks opts
          (TypeInfo.Defined
            (DefinedTypeInfo.mk docs (TypeName.mk ndocs path nm gens) defExpr))).length then
      Except.ok { st with
        out := st.out ++ sJoin (defChunks opts
          (TypeInfo.Defined (DefinedTypeInfo.mk docs (TypeName.mk ndocs path nm gens) defExpr)))
        wix := st.wix + (defChunks opts
          (TypeInfo.Defined
            (DefinedTypeInfo.mk docs (TypeName.mk ndocs path nm gens) defExpr))).length
        stats := st.stats + 1
        trace := st.trace ++ [id] }
    else Except.error EmitErr.writeFailed) := by
  have hns : EmChar
      (fun fa st =>
        if path.isEmpty then Except.ok st
        else
          andThen (write fa "export namespace " st) (fun st =>
          andThen (emitNsPath fa path true st) (fun st => write fa "\x7b" st)))
      (if path.isEmpty then []
       else "export namespace " :: (nsPathChunks path true ++ ["\x7b"])) := by
    cases hp : path.isEmpty with
    | true => simpa using emChar_skip
    | false =>
      simpa using emChar_seq (emChar_write "export namespace ")
        (emChar_seq (emitNsPath_char path true) (emChar_write "\x7b"))
  have hclose : EmChar
      (fun fa st => if path.isEmpty then Except.ok st else write fa "\x7d" st)
      (if path.isEmpty then [] else ["\x7d"]) := by
    cases hp : path.isEmpty with
    | true => simpa using emChar_skip
    | false => simpa using emChar_write "\x7d"
  have hchain := emChar_seq (emitDocsOpt_char docs)
    (emChar_seq hns
      (emChar_seq (emChar_write "export type ")
        (emChar_seq (emitTypeName_char opts (TypeName.mk ndocs [] nm gens))
          (emChar_seq (emChar_write "=")
            (emChar_seq (emitExpr_char opts defExpr)
              (emChar_seq (emChar_write ";")
                (emChar_seq hclose (emChar_write "\n"))))))))
  have hb := hchain fa { st with stats := st.stats + 1, trace := st.trace ++ [id] }
  exact hb

theorem isDefinedB_native {env : Env} {id : Nat} {ni : NativeTypeInfo}
    (h : (env.defn id).info = TypeInfo.Native ni) : isDefinedB env id = false := by
  simp [isDefinedB, h]

theorem isDefinedB_defined {env : Env} {id : Nat} {di : DefinedTypeInfo}
    (h : (env.defn id).info = TypeInfo.Defined di) : isDefinedB env id = true := by
  simp [isDefinedB, h]

/-- What one successful walker step guarantees, relating its entry state to
its exit state; `reach` bounds which ids the step may newly visit. -/
structure RunFacts (env : Env) (opts : DefinitionFileOptions) (reach : Nat → Prop)
    (st stF : EmitSt) : Prop where
  visMono : st.visited ⊆ stF.visited
  traceOut : ∃ t, stF.trace = st.trace ++ t ∧
      stF.out = st.out ++ sJoin (t.map (declText opts env)) ∧
      stF.stats = st.stats + t.length ∧
      ∀ x ∈ t, x ∉ st.visited ∧ x ∈ stF.visited ∧ isDefinedB env x = true
  traceCompl : ∀ x, x ∈ stF.visited → x ∉ st.visited → isDefinedB env x = true →
      x ∈ stF.trace
  visSound : ∀ x, x ∈ stF.visited → x ∈ st.visited ∨ reach x
  nodupPres : (∀ x ∈ st.trace, x ∈ st.visited) → st.trace.Nodup →
      ((∀ x ∈ stF.trace, x ∈ stF.visited) ∧ stF.trace.Nodup)

theorem runFacts_rfl {env : Env} {opts : DefinitionFileOptions} {reach : Nat → Prop}
    {st : EmitSt} : RunFacts env opts reach st st := by
  refine ⟨Finset.Subset.refl _, ⟨[], ?_, ?_, ?_, ?_⟩, ?_, ?_, ?_⟩
  · simp
  · simp [sJoin, str_append_empty]
  · simp
  · simp
  · intro x hx hx2 _
    exact absurd hx hx2
  · intro x hx
    exact Or.inl hx
  · intro h1 h2
    exact ⟨h1, h2⟩

theorem runFacts_trans {env : Env} {opts : DefinitionFileOptions}
    {r1 r2 r : Nat → Prop} {st1 st2 st3 : EmitSt}
    (h1 : RunFacts env opts r1 st1 st2) (h2 : RunFacts env opts r2 st2 st3)
    (hr1 : ∀ x, r1 x → r x) (hr2 : ∀ x, r2 x → r x) :
    RunFacts env opts r st1 st3 := by
  obtain ⟨t1, ht1, ho1, hs1, he1⟩ := h1.traceOut
  obtain ⟨t2, ht2, ho2, hs2, he2⟩ := h2.traceOut
  refine ⟨Finset.Subset.trans h1.visMono h2.visMono,
    ⟨t1 ++ t2, ?_, ?_, ?_, ?_⟩, ?_, ?_, ?_⟩
  · rw [ht2, ht1, List.append_assoc]
  · rw [ho2, ho1, List.map_append, sJoin_append, str_append_assoc]
  · rw [hs2, hs1, List.length_append]
    omega
  · intro x hx
    rcases List.mem_append.mp hx with hx | hx
    · obtain ⟨ha, hb, hc⟩ := he1 x hx
      exact ⟨ha, h2.visMono hb, hc⟩
    · obtain ⟨ha, hb, hc⟩ := he2 x hx
      exact ⟨fun hmem => ha (h1.visMono hmem), hb, hc⟩
  · intro x hx hnx hd
    by_cases hm : x ∈ st2.visited
    · have := h1.traceCompl x hm hnx hd
      rw [ht2]
      exact List.mem_append.mpr (Or.inl this)
    · exact h2.traceCompl x hx hm hd
  · intro x hx
    rcases h2.visSound x hx with hx2 | hx2
    · rcases h1.visSound x hx2 with hx1 | hx1
      · exact Or.inl hx1
      · exact Or.inr (hr1 x hx1)
    · exact Or.inr (hr2 x hx2)
  · intro ha hb
    obtain ⟨ha2, hb2⟩ := h1.nodupPres ha hb
    exact h2.nodupPres ha2 hb2

theorem emitList_runFacts {env : Env} {opts : DefinitionFileOptions}
    {f : Nat → EmitM} {rOf : Nat → Nat → Prop} :
    ∀ (ds : List Nat),
      (∀ d ∈ ds, ∀ st stF, f d st = Except.ok stF → RunFacts env opts (rOf d) st stF) →
      ∀ st stF, emitList f ds st = Except.ok stF →
        RunFacts env opts (fun x => ∃ d ∈ ds, rOf d x) st stF := by
  intro ds
  induction ds with
  | nil =>
    intro _ st stF h
    have : st = stF := by
      simpa [emitList] using h
    subst this
    exact runFacts_rfl
  | cons d ds ih =>
    intro hf st stF h
    simp only [emitList] at h
    cases hd : f d st with
    | error e => rw [hd] at h; simp [andThen] at h
    | ok st1 =>
      rw [hd] at h
      have hrest : emitList f ds st1 = Except.ok stF := h
      have h1 := hf d (List.mem_cons_self d ds) st st1 hd
      have h2 := ih (fun d' hd' => hf d' (List.mem_cons_of_mem d hd')) st1 stF hrest
      refine runFacts_trans h1 h2 ?_ ?_
      · intro x hx
        exact ⟨d, List.mem_cons_self d ds, hx⟩
      · intro x hx
        obtain ⟨d', hd', hx⟩ := hx
        exact ⟨d', List.mem_cons_of_mem d hd', hx⟩

theorem emitType_runFacts (fa : FailFn) (opts : DefinitionFileOptions) (env : Env) :
    ∀ fuel id st stF, emitType fa opts env fuel id st = Except.ok stF →
      RunFacts env opts (Reaches env id) st stF ∧ id ∈ stF.visited := by
  intro fuel
  induction fuel with
  | zero =>
    intro id st stF h
    simp [emitType] at h
  | succ fuel ih =>
    intro id st stF h
    simp only [emitType] at h
    by_cases hv : id ∈ st.visited
    · rw [if_pos hv] at h
      have : st = stF := Except.ok.inj h
      subst this
      exact ⟨runFacts_rfl, hv⟩
    · rw [if_neg hv] at h
      cases hL : emitList (fun d => emitType fa opts env fuel d) (env.defn id).deps
          { st with visited := insert id st.visited } with
      | error e => rw [hL] at h; simp [andThen] at h
      | ok st2 =>
        rw [hL] at h
        have hDef : emitDef fa opts id (env.defn id).info st2 = Except.ok stF := h
        have facts1 :
            RunFacts env opts (fun x => ∃ d ∈ (env.defn id).deps, Reaches env d x)
              { st with visited := insert id st.visited } st2 :=
          emitList_runFacts (env.defn id).deps
            (fun d _ st' stF' h' => (ih d st' stF' h').1) _ st2 hL
        obtain ⟨t2, ht2, ho2, hs2, he2⟩ := facts1.traceOut
        have hsub1 : st.visited ⊆ insert id st.visited := Finset.subset_insert _ _
        have hidvis : id ∈ st2.visited := facts1.visMono (Finset.mem_insert_self _ _)
        have hVisSound : ∀ x, x ∈ st2.visited → x ∈ st.visited ∨ Reaches env id x := by
          intro x hx
          rcases facts1.visSound x hx with hx1 | hx1
          · rcases Finset.mem_insert.mp hx1 with rfl | hx1
            · exact Or.inr Relation.ReflTransGen.refl
            · exact Or.inl hx1
          · obtain ⟨d, hd, hr⟩ := hx1
            exact Or.inr (Relation.ReflTransGen.head hd hr)
        have hTrace2 : st2.trace = st.trace ++ t2 := ht2
        have hOut2 : st2.out = st.out ++ sJoin (t2.map (declText opts env)) := ho2
        have hIdNotT2 : id ∉ t2 := by
          intro hmem
          exact (he2 id hmem).1 (Finset.mem_insert_self _ _)
        cases hInfo : (env.defn id).info with
        | Native ni =>
          rw [hInfo, emitDef_native] at hDef
          have : st2 = stF := Except.ok.inj hDef
          subst this
          refine ⟨⟨Finset.Subset.trans hsub1 facts1.visMono,
            ⟨t2, hTrace2, hOut2, hs2, ?_⟩, ?_, hVisSound, ?_⟩, hidvis⟩
          · intro x hx
            obtain ⟨ha, hb, hc⟩ := he2 x hx
            exact ⟨fun hm => ha (hsub1 hm), hb, hc⟩
          · intro x hx hnx hd
            by_cases hxid : x = id
            · subst hxid
              rw [isDefinedB_native hInfo] at hd
              exact absurd hd (by simp)
            · have hnx1 : x ∉ insert id st.visited := by
                intro hm
                rcases Finset.mem_insert.mp hm with h' | h'
                · exact hxid h'
                · exact hnx h'
              exact facts1.traceCompl x hx hnx1 hd
          · intro ha hb
            refine facts1.nodupPres ?_ hb
            intro x hx
            exact hsub1 (ha x hx)
        | Defined di =>
          cases di with
          | mk docs name defExpr =>
            cases name with
            | mk ndocs path nm gens =>
              rw [hInfo, emitDef_defined_char] at hDef
              set dc := defChunks opts
                (TypeInfo.Defined
                  (DefinedTypeInfo.mk docs (TypeName.mk ndocs path nm gens) defExpr)) with hdc
              cases hok : okWindow fa st2.wix dc.length with
              | false =>
                rw [hok] at hDef
                simp at hDef
              | true =>
                rw [hok] at hDef
                simp only [if_pos] at hDef
                have hstF : ({ st2 with
                    out := st2.out ++ sJoin dc
                    wix := st2.wix + dc.length
                    stats := st2.stats + 1
                    trace := st2.trace ++ [id] } : EmitSt) = stF := Except.ok.inj hDef
                subst hstF
                have hDefId : isDefinedB env id = true := isDefinedB_defined hInfo
                have hDeclText : declText opts env id = sJoin dc := by
                  simp only [declText, hInfo, hdc]
                refine ⟨⟨Finset.Subset.trans hsub1 facts1.visMono,
                  ⟨t2 ++ [id], ?_, ?_, ?_, ?_⟩, ?_, hVisSound, ?_⟩, hidvis⟩
                · simp only [hTrace2, List.append_assoc]
                · simp only [hOut2, List.map_append, List.map_cons, List.map_nil,
                    sJoin_append, str_append_assoc, sJoin, hDeclText, str_append_empty]
                · simp only [hs2, List.length_append, List.length_cons, List.length_nil]
                  omega
                · intro x hx
                  rcases List.mem_append.mp hx with hx | hx
                  · obtain ⟨ha, hb, hc⟩ := he2 x hx
                    exact ⟨fun hm => ha (hsub1 hm), hb, hc⟩
                  · rcases List.mem_singleton.mp hx with rfl
                    exact ⟨hv, hidvis, hDefId⟩
                · intro x hx hnx hd
                  by_cases hxid : x = id
                  · subst hxid
                    exact List.mem_append.mpr (Or.inr (List.mem_singleton.mpr rfl))
                  · have hnx1 : x ∉ insert id st.visited := by
                      intro hm
                      rcases Finset.mem_insert.mp hm with h' | h'
                      · exact hxid h'
                      · exact hnx h'
                    exact List.mem_append.mpr
                      (Or.inl (facts1.traceCompl x hx hnx1 hd))
                · intro ha hb
                  have hTr1 := facts1.nodupPres
                    (fun x hx => hsub1 (ha x hx)) hb
                  have hIdNotTr : id ∉ st2.trace := by
                    rw [hTrace2]
                    intro hmem
                    rcases List.mem_append.mp hmem with hmem | hmem
                    · exact hv (ha id hmem)
                    · exact hIdNotT2 hmem
                  constructor
                  · intro x hx
                    rcases List.mem_append.mp hx with hx | hx
                    · exact hTr1.1 x hx
                    · rcases List.mem_singleton.mp hx with rfl
                      exact hidvis
                  · rw [List.nodup_append]
                    refine ⟨hTr1.2, List.nodup_singleton _, ?_⟩
                    intro x hx hx2
                    rcases List.mem_singleton.mp hx2 with rfl
                    exact hIdNotTr hx

theorem reach_lt {env : Env} (hwf : EnvWF env) {a x : Nat} (ha : a < env.size)
    (h : Reaches env a x) : x < env.size := by
  induction h with
  | refl => exact ha
  | tail h1 h2 ih => exact hwf _ ih _ h2

/-- Every visited id is closed under dependencies, except possibly those in
`P` (the call stack of the walker). -/
def ClosedExc (env : Env) (P : Nat → Prop) (V : Finset Nat) : Prop :=
  ∀ x ∈ V, P x ∨ ∀ d ∈ (env.defn x).deps, d ∈ V

theorem emitDef_visited (fa : FailFn) (opts : DefinitionFileOptions) (id : Nat)
    (info : TypeInfo) (st stF : EmitSt) (h : emitDef fa opts id info st = Except.ok stF) :
    stF.visited = st.visited := by
  cases info with
  | Native ni =>
    rw [emitDef_native] at h
    rw [← Except.ok.inj h]
  | Defined di =>
    cases di with
    | mk docs name defExpr =>
      cases name with
      | mk ndocs path nm gens =>
        rw [emitDef_defined_char] at h
        split at h
        · rw [← Except.ok.inj h]
        · simp at h

theorem emitDef_ne_fuelOut (fa : FailFn) (opts : DefinitionFileOptions) (id : Nat)
    (info : TypeInfo) (st : EmitSt) :
    emitDef fa opts id info st ≠ Except.error EmitErr.fuelOut := by
  cases info with
  | Native ni => rw [emitDef_native]; simp
  | Defined di =>
    cases di with
    | mk docs name defExpr =>
      cases name with
      | mk ndocs path nm gens =>
        rw [emitDef_defined_char]
        split
        · simp
        · simp

theorem emitType_closure (fa : FailFn) (opts : DefinitionFileOptions) (env : Env) :
    ∀ fuel id st stF, emitType fa opts env fuel id st = Except.ok stF →
      ∀ P : Nat → Prop, ClosedExc env P st.visited → ClosedExc env P stF.visited := by
  intro fuel
  induction fuel with
  | zero =>
    intro id st stF h
    simp [emitType] at h
  | succ fuel ih =>
    have listLemma : ∀ ds st stF,
        emitList (fun d => emitType fa opts env fuel d) ds st = Except.ok stF →
        ∀ P : Nat → Prop, ClosedExc env P st.visited →
          ClosedExc env P stF.visited ∧ ∀ d ∈ ds, d ∈ stF.visited := by
      intro ds
      induction ds with
      | nil =>
        intro st stF h P hP
        have : st = stF := by simpa [emitList] using h
        subst this
        exact ⟨hP, by simp⟩
      | cons d ds ihds =>
        intro st stF h P hP
        simp only [emitList] at h
        cases hd : emitType fa opts env fuel d st with
        | error e => rw [hd] at h; simp [andThen] at h
        | ok st1 =>
          rw [hd] at h
          have hstep := ih d st st1 hd P hP
          have hfacts := emitType_runFacts fa opts env fuel d st st1 hd
          have hrest := ihds st1 stF h P hstep
          have hmonoRest : st1.visited ⊆ stF.visited :=
            (emitList_runFacts ds
              (fun d' _ st' stF' h' => (emitType_runFacts fa opts env fuel d' st' stF' h').1)
              st1 stF h).visMono
          refine ⟨hrest.1, ?_⟩
          intro d' hd'
          rcases List.mem_cons.mp hd' with rfl | hd'
          · exact hmonoRest hfacts.2
          · exact hrest.2 d' hd'
    intro id st stF h P hP
    simp only [emitType] at h
    by_cases hv : id ∈ st.visited
    · rw [if_pos hv] at h
      have : st = stF := Except.ok.inj h
      subst this
      exact hP
    · rw [if_neg hv] at h
      cases hL : emitList (fun d => emitType fa opts env fuel d) (env.defn id).deps
          { st with visited := insert id st.visited } with
      | error e => rw [hL] at h; simp [andThen] at h
      | ok st2 =>
        rw [hL] at h
        have hDef : emitDef fa opts id (env.defn id).info st2 = Except.ok stF := h
        have hVisEq : stF.visited = st2.visited := emitDef_visited fa opts id _ st2 stF hDef
        have hP1 : ClosedExc env (fun x => P x ∨ x = id) (insert id st.visited) := by
          intro x hx
          rcases Finset.mem_insert.mp hx with rfl | hx
          · exact Or.inl (Or.inr rfl)
          · rcases hP x hx with hx2 | hx2
            · exact Or.inl (Or.inl hx2)
            · exact Or.inr (fun d hd => Finset.mem_insert_of_mem (hx2 d hd))
        have hList := listLemma (env.defn id).deps _ st2 hL (fun x => P x ∨ x = id) hP1
        rw [hVisEq]
        intro x hx
        rcases hList.1 x hx with hx2 | hx2
        · rcases hx2 with hx2 | rfl
          · exact Or.inl hx2
          · exact Or.inr hList.2
        · exact Or.inr hx2

theorem emitType_visBound {env : Env} (hwf : EnvWF env) (fa : FailFn)
    (opts : DefinitionFileOptions) (fuel id : Nat) (st stF : EmitSt)
    (hid : id < env.size) (hb : ∀ v ∈ st.visited, v < env.size)
    (h : emitType fa opts env fuel id st = Except.ok stF) :
    ∀ v ∈ stF.visited, v < env.size := by
  intro v hv
  rcases (emitType_runFacts fa opts env fuel id st stF h).1.visSound v hv with hv2 | hv2
  · exact hb v hv2
  · exact reach_lt hwf hid hv2

theorem emitType_no_fuelOut {env : Env} (hwf : EnvWF env) (fa : FailFn)
    (opts : DefinitionFileOptions) :
    ∀ fuel id st, id < env.size → (∀ v ∈ st.visited, v < env.size) →
      (Finset.range env.size \ st.visited).card < fuel →
      emitType fa opts env fuel id st ≠ Except.error EmitErr.fuelOut := by
  intro fuel
  induction fuel with
  | zero =>
    intro id st _ _ hcard
    omega
  | succ fuel ih =>
    have listLemma : ∀ ds st, (∀ d ∈ ds, d < env.size) →
        (∀ v ∈ st.visited, v < env.size) →
        (Finset.range env.size \ st.visited).card < fuel →
        emitList (fun d => emitType fa opts env fuel d) ds st ≠
          Except.error EmitErr.fuelOut := by
      intro ds
      induction ds with
      | nil =>
        intro st _ _ _
        simp [emitList]
      | cons d ds ihds =>
        intro st hds hb hcard
        simp only [emitList]
        cases hd : emitType fa opts env fuel d st with
        | error e =>
          have hne := ih d st (hds d (List.mem_cons_self d ds)) hb hcard
          intro hcontra
          simp only [hd, andThen] at hcontra
          have : e = EmitErr.fuelOut := Except.error.inj hcontra
          subst this
          exact hne hd
        | ok st1 =>
          have hb1 := emitType_visBound hwf fa opts fuel d st st1
            (hds d (List.mem_cons_self d ds)) hb hd
          have hmono := (emitType_runFacts fa opts env fuel d st st1 hd).1.visMono
          have hcard1 : (Finset.range env.size \ st1.visited).card < fuel := by
            have hsub : Finset.range env.size \ st1.visited ⊆
                Finset.range env.size \ st.visited :=
              Finset.sdiff_subset_sdiff (Finset.Subset.refl _) hmono
            have := Finset.card_le_card hsub
            omega
          intro hcontra
          simp only [hd, andThen] at hcontra
          exact ihds st1 (fun d' hd' => hds d' (List.mem_cons_of_mem d hd')) hb1
            hcard1 hcontra
    intro id st hid hb hcard
    intro hcontra
    simp only [emitType] at hcontra
    by_cases hv : id ∈ st.visited
    · rw [if_pos hv] at hcontra
      exact absurd hcontra (by simp)
    · rw [if_neg hv] at hcontra
      have hmemsd : id ∈ Finset.range env.size \ st.visited :=
        Finset.mem_sdiff.mpr ⟨Finset.mem_range.mpr hid, hv⟩
      have hcard1 :
          (Finset.range env.size \ insert id st.visited).card < fuel := by
        rw [Finset.sdiff_insert]
        rw [Finset.card_erase_of_mem hmemsd]
        have hpos : 0 < (Finset.range env.size \ st.visited).card :=
          Finset.card_pos.mpr ⟨id, hmemsd⟩
        omega
      have hb1 : ∀ v ∈ insert id st.visited, v < env.size := by
        intro v hv2
        rcases Finset.mem_insert.mp hv2 with rfl | hv2
        · exact hid
        · exact hb v hv2
      cases hL : emitList (fun d => emitType fa opts env fuel d) (env.defn id).deps
          { st with visited := insert id st.visited } with
      | error e =>
        rw [hL] at hcontra
        have he : e = EmitErr.fuelOut := by
          simp [andThen] at hcontra
          exact hcontra
        subst he
        exact listLemma (env.defn id).deps _ (fun d hd => hwf id hid d hd) hb1 hcard1 hL
      | ok st2 =>
        rw [hL] at hcontra
        exact emitDef_ne_fuelOut fa opts id (env.defn id).info st2 hcontra

/-- Simulation of a run against the always-succeeding sink: if the run
succeeds with every write succeeding, then against an arbitrary sink it
reaches the same final state iff no write of its window fails, and fails
with `writeFailed` otherwise. -/
def SimChar (f : FailFn → EmitM) : Prop :=
  ∀ st stF, f allOk st = Except.ok stF →
    st.wix ≤ stF.wix ∧
    ∀ fa, f fa st =
      if okWindow fa st.wix (stF.wix - st.wix) then Except.ok stF
      else Except.error EmitErr.writeFailed

theorem simChar_congr {f g : FailFn → EmitM} (h : SimChar f)
    (hfg : ∀ fa st, g fa st = f fa st) : SimChar g := by
  intro st stF hok
  rw [hfg allOk st] at hok
  obtain ⟨h1, h2⟩ := h st stF hok
  refine ⟨h1, ?_⟩
  intro fa
  rw [hfg fa st]
  exact h2 fa

theorem simChar_ok : SimChar (fun _ st => Except.ok st) := by
  intro st stF h
  have : st = stF := Except.ok.inj h
  subst this
  refine ⟨Nat.le_refl _, ?_⟩
  intro fa
  simp [okWindow]

theorem simChar_of_emChar {f : FailFn → EmitM} {c : List String} (h : EmChar f c) :
    SimChar f := by
  intro st stF hok
  have h1 := h allOk st
  rw [okWindow_allOk, if_pos rfl] at h1
  have hstF : ({ st with out := st.out ++ sJoin c, wix := st.wix + c.length } : EmitSt)
      = stF := Except.ok.inj (h1.symm.trans hok)
  have hwix : stF.wix = st.wix + c.length := by rw [← hstF]
  refine ⟨by omega, ?_⟩
  intro fa
  have hlen : stF.wix - st.wix = c.length := by omega
  rw [h fa st, hlen, hstF]

theorem simChar_andThen {f g : FailFn → EmitM} (hf : SimChar f) (hg : SimChar g) :
    SimChar (fun fa st => andThen (f fa st) (g fa)) := by
  intro st stF h
  have h0 : andThen (f allOk st) (g allOk) = Except.ok stF := h
  cases hm : f allOk st with
  | error e => rw [hm] at h0; simp [andThen] at h0
  | ok stM =>
    rw [hm] at h0
    have hgM : g allOk stM = Except.ok stF := h0
    obtain ⟨hle1, hsim1⟩ := hf st stM hm
    obtain ⟨hle2, hsim2⟩ := hg stM stF hgM
    refine ⟨Nat.le_trans hle1 hle2, ?_⟩
    intro fa
    show andThen (f fa st) (g fa) = _
    rw [hsim1 fa]
    have hsplit : stF.wix - st.wix = (stM.wix - st.wix) + (stF.wix - stM.wix) := by omega
    rw [hsplit, okWindow_add]
    cases hA : okWindow fa st.wix (stM.wix - st.wix) with
    | false => simp [andThen]
    | true =>
      simp only [Bool.true_and, if_true, andThen]
      rw [hsim2 fa]
      have harith : st.wix + (stM.wix - st.wix) = stM.wix := by omega
      rw [harith]

theorem simChar_emitDef (opts : DefinitionFileOptions) (id : Nat) (info : TypeInfo) :
    SimChar (fun fa => emitDef fa opts id info) := by
  cases info with
  | Native ni =>
    refine simChar_congr simChar_ok ?_
    intro fa st
    exact emitDef_native fa opts id ni st
  | Defined di =>
    cases di with
    | mk docs name defExpr =>
      cases name with
      | mk ndocs path nm gens =>
        intro st stF hok
        have hok2 : emitDef allOk opts id
            (TypeInfo.Defined
              (DefinedTypeInfo.mk docs (TypeName.mk ndocs path nm gens) defExpr)) st =
            Except.ok stF := hok
        rw [emitDef_defined_char, okWindow_allOk, if_pos rfl] at hok2
        have hstF := Except.ok.inj hok2
        have hwix : stF.wix = st.wix +
            (defChunks opts (TypeInfo.Defined
              (DefinedTypeInfo.mk docs (TypeName.mk ndocs path nm gens) defExpr))).length := by
          rw [← hstF]
        refine ⟨by omega, ?_⟩
        intro fa
        have hlen : stF.wix - st.wix =
            (defChunks opts (TypeInfo.Defined
              (DefinedTypeInfo.mk docs (TypeName.mk ndocs path nm gens) defExpr))).length := by
          omega
        show emitDef fa opts id
            (TypeInfo.Defined
              (DefinedTypeInfo.mk docs (TypeName.mk ndocs path nm gens) defExpr)) st = _
        rw [emitDef_defined_char, hlen, hstF]

theorem emitType_simChar (opts : DefinitionFileOptions) (env : Env) :
    ∀ fuel id, SimChar (fun fa => emitType fa opts env fuel id) := by
  intro fuel
  induction fuel with
  | zero =>
    intro id st stF h
    simp [emitType] at h
  | succ fuel ih =>
    have listSim : ∀ ds : List Nat,
        SimChar (fun fa st => emitList (fun d => emitType fa opts env fuel d) ds st) := by
      intro ds
      induction ds with
      | nil =>
        refine simChar_congr simChar_ok ?_
        intro fa st
        simp [emitList]
      | cons d ds ihds =>
        refine simChar_congr (simChar_andThen (ih d) ihds) ?_
        intro fa st
        simp [emitList]
    intro id st stF h
    by_cases hv : id ∈ st.visited
    · simp only [emitType, if_pos hv] at h
      have : st = stF := Except.ok.inj h
      subst this
      refine ⟨Nat.le_refl _, ?_⟩
      intro fa
      simp [emitType, if_pos hv, okWindow]
    · simp only [emitType, if_neg hv] at h
      have hcomp := simChar_andThen (listSim (env.defn id).deps)
        (simChar_emitDef opts id (env.defn id).info)
      obtain ⟨hle, hsim⟩ := hcomp { st with visited := insert id st.visited } stF h
      refine ⟨hle, ?_⟩
      intro fa
      simp only [emitType, if_neg hv]
      exact hsim fa

theorem emitDef_allOk_ok (opts : DefinitionFileOptions) (id : Nat) (info : TypeInfo)
    (st : EmitSt) : ∃ stF, emitDef allOk opts id info st = Except.ok stF := by
  cases info with
  | Native ni => exact ⟨st, emitDef_native allOk opts id ni st⟩
  | Defined di =>
    cases di with
    | mk docs name defExpr =>
      cases name with
      | mk ndocs path nm gens =>
        rw [emitDef_defined_char, okWindow_allOk, if_pos rfl]
        exact ⟨_, rfl⟩

theorem emitType_allOk_ne_writeFailed (opts : DefinitionFileOptions) (env : Env) :
    ∀ fuel id st, emitType allOk opts env fuel id st ≠ Except.error EmitErr.writeFailed := by
  intro fuel
  induction fuel with
  | zero =>
    intro id st
    simp [emitType]
  | succ fuel ih =>
    have listLemma : ∀ ds st,
        emitList (fun d => emitType allOk opts env fuel d) ds st ≠
          Except.error EmitErr.writeFailed := by
      intro ds
      induction ds with
      | nil =>
        intro st
        simp [emitList]
      | cons d ds ihds =>
        intro st
        simp only [emitList]
        cases hd : emitType allOk opts env fuel d st with
        | error e =>
          intro hcontra
          simp only [andThen] at hcontra
          have he : e = EmitErr.writeFailed := by
            simp at hcontra
            exact hcontra
          subst he
          exact ih d st hd
        | ok st1 =>
          simp only [andThen]
          exact ihds st1
    intro id st
    simp only [emitType]
    by_cases hv : id ∈ st.visited
    · rw [if_pos hv]
      simp
    · rw [if_neg hv]
      cases hL : emitList (fun d => emitType allOk opts env fuel d) (env.defn id).deps
          { st with visited := insert id st.visited } with
      | error e =>
        intro hcontra
        simp only [andThen] at hcontra
        have he : e = EmitErr.writeFailed := by
          simp at hcontra
          exact hcontra
        subst he
        exact listLemma (env.defn id).deps _ hL
      | ok st2 =>
        simp only [andThen]
        obtain ⟨stF, hF⟩ := emitDef_allOk_ok opts id (env.defn id).info st2
        rw [hF]
        simp

/-- The chunks written for the optional header comment block. -/
def headerChunks : Option String → List String
  | some h => headerLinesChunks (rustLines h) ++ ["\n"]
  | none => []

/-- The chunks written before the walker starts: header block, default
export, namespace opening. -/
def preChunks (opts : DefinitionFileOptions) : List String :=
  (headerChunks opts.header ++
    [("export default " ++ opts.root_namespace ++ ";\n")]) ++
    [("export namespace " ++ opts.root_namespace ++ "\x7b\n")]

theorem headerFun_char (opts : DefinitionFileOptions) :
    EmChar (fun fa st =>
      match opts.header with
      | some h => andThen (emitHeaderLines fa (rustLines h) st) (fun st => write fa "\n" st)
      | none => Except.ok st) (headerChunks opts.header) := by
  cases hOpt : opts.header with
  | none => simpa [headerChunks] using emChar_skip
  | some hdr =>
    simpa [headerChunks] using
      emChar_seq (emitHeaderLines_char (rustLines hdr)) (emChar_write "\n")

theorem andThen_assoc4 (x : Except EmitErr EmitSt) (f g k : EmitM) :
    andThen x (fun st => andThen (f st) (fun st => andThen (g st) k)) =
    andThen (andThen (andThen x f) g) k := by
  cases x with
  | error e => rfl
  | ok st =>
    show andThen (f st) (fun st => andThen (g st) k) = andThen (andThen (f st) g) k
    cases hf : f st with
    | error e => rfl
    | ok st2 =>
      show andThen (g st2) k = andThen (g st2) k
      rfl

/-- The state after the successful preamble of a run. -/
def preSt (opts : DefinitionFileOptions) : EmitSt :=
  { initSt with out := initSt.out ++ sJoin (preChunks opts),
                wix := initSt.wix + (preChunks opts).length }

theorem preSt_out (opts : DefinitionFileOptions) :
    (preSt opts).out = sJoin (preChunks opts) :=
  str_empty_append _

theorem preSt_visited (opts : DefinitionFileOptions) : (preSt opts).visited = ∅ := rfl

theorem preSt_trace (opts : DefinitionFileOptions) : (preSt opts).trace = [] := rfl

theorem preSt_stats (opts : DefinitionFileOptions) : (preSt opts).stats = 0 := rfl

theorem preSt_wix (opts : DefinitionFileOptions) :
    (preSt opts).wix = (preChunks opts).length := by
  simp [preSt, initSt]

theorem pre_char (fa : FailFn) (opts : DefinitionFileOptions) :
    andThen
      (andThen
        (match opts.header with
         | some hd => andThen (emitHeaderLines fa (rustLines hd) initSt)
            (fun st => write fa "\n" st)
         | none => Except.ok initSt)
        (fun st => write fa ("export default " ++ opts.root_namespace ++ ";\n") st))
      (fun st => write fa ("export namespace " ++ opts.root_namespace ++ "\x7b\n") st) =
    (if okWindow fa initSt.wix (preChunks opts).length then Except.ok (preSt opts)
     else Except.error EmitErr.writeFailed) := by
  have hchar := emChar_seq (emChar_seq (headerFun_char opts)
    (emChar_write ("export default " ++ opts.root_namespace ++ ";\n")))
    (emChar_write ("export namespace " ++ opts.root_namespace ++ "\x7b\n"))
  exact hchar fa initSt

theorem wd_parse (fa : FailFn) (env : Env) (opts : DefinitionFileOptions) (root : Nat)
    (s : Nat) (stF : EmitSt)
    (h : writeDefinitionFile fa env opts root = Except.ok (s, stF)) :
    ∃ st2, emitType fa opts env (env.size + 1) root (preSt opts) = Except.ok st2 ∧
      s = st2.stats ∧
      stF = { st2 with out := st2.out ++ "\x7d\n", wix := st2.wix + 1 } := by
  simp only [writeDefinitionFile] at h
  rw [andThen_assoc4] at h
  rw [pre_char fa opts] at h
  cases hok : okWindow fa initSt.wix (preChunks opts).length with
  | false =>
    rw [hok] at h
    simp [andThen] at h
  | true =>
    rw [hok] at h
    rw [if_pos rfl] at h
    have h1 : (match andThen (Except.ok (preSt opts))
        (fun st => emitType fa opts env (env.size + 1) root st) with
      | Except.error e => Except.error e
      | Except.ok st =>
        match write fa "\x7d\n" st with
        | Except.error e => Except.error e
        | Except.ok stFin => Except.ok (st.stats, stFin)) = Except.ok (s, stF) := h
    cases hmid : emitType fa opts env (env.size + 1) root (preSt opts) with
    | error e =>
      have h2 : (Except.error e : Except EmitErr (Nat × EmitSt)) = Except.ok (s, stF) := by
        rw [← h1]
        show _ = (match emitType fa opts env (env.size + 1) root (preSt opts) with
          | Except.error e => Except.error e
          | Except.ok st =>
            match write fa "\x7d\n" st with
            | Except.error e => Except.error e
            | Except.ok stFin => Except.ok (st.stats, stFin))
        rw [hmid]
      simp at h2
    | ok st2 =>
      have h2 : (match write fa "\x7d\n" st2 with
          | Except.error e => Except.error e
          | Except.ok stFin => Except.ok (st2.stats, stFin)) = Except.ok (s, stF) := by
        rw [← h1]
        show _ = (match emitType fa opts env (env.size + 1) root (preSt opts) with
          | Except.error e => Except.error e
          | Except.ok st =>
            match write fa "\x7d\n" st with
            | Except.error e => Except.error e
            | Except.ok stFin => Except.ok (st.stats, stFin))
        rw [hmid]
      cases hw : write fa "\x7d\n" st2 with
      | error e =>
        rw [hw] at h2
        simp at h2
      | ok stFin =>
        rw [hw] at h2
        have hPair : (st2.stats, stFin) = (s, stF) := Except.ok.inj h2
        have hs : s = st2.stats := (congrArg Prod.fst hPair).symm
        have hF : stFin = stF := congrArg Prod.snd hPair
        simp only [write] at hw
        cases hfa : fa st2.wix with
        | true => rw [hfa] at hw; simp at hw
        | false =>
          rw [hfa] at hw
          rw [if_neg (by simp)] at hw
          have heq : ({ st2 with out := st2.out ++ "\x7d\n", wix := st2.wix + 1 } : EmitSt)
              = stFin := Except.ok.inj hw
          exact ⟨st2, rfl, hs, by rw [← hF, ← heq]⟩

theorem wd_main_facts (fa : FailFn) (env : Env) (opts : DefinitionFileOptions)
    (root : Nat) (s : Nat) (stF : EmitSt)
    (h : writeDefinitionFile fa env opts root = Except.ok (s, stF)) :
    stF.trace.Nodup ∧
    (∀ x, x ∈ stF.trace ↔ (Reaches env root x ∧ isDefinedB env x = true)) ∧
    s = stF.trace.length ∧
    stF.out = sJoin (preChunks opts) ++
      (sJoin (stF.trace.map (declText opts env)) ++ "\x7d\n") ∧
    stF.stats = s := by
  obtain ⟨st2, hmid, hs, hF⟩ := wd_parse fa env opts root s stF h
  obtain ⟨rf, hrootvis⟩ := emitType_runFacts fa opts env (env.size + 1) root (preSt opts) st2 hmid
  obtain ⟨t, ht, ho, hstat, helem⟩ := rf.traceOut
  have htr : st2.trace = t := by
    rw [ht, preSt_trace, List.nil_append]
  have hclosed : ClosedExc env (fun _ => False) st2.visited := by
    refine emitType_closure fa opts env (env.size + 1) root (preSt opts) st2 hmid _ ?_
    intro x hx
    rw [preSt_visited] at hx
    exact absurd hx (Finset.not_mem_empty x)
  have hcompl : ∀ x, Reaches env root x → x ∈ st2.visited := by
    intro x hx
    induction hx with
    | refl => exact hrootvis
    | tail h1 h2 ih =>
      rcases hclosed _ ih with hfalse | hcl
      · exact absurd hfalse (fun hc => hc)
      · exact hcl _ h2
  have hiff : ∀ x, x ∈ st2.trace ↔ (Reaches env root x ∧ isDefinedB env x = true) := by
    intro x
    constructor
    · intro hx
      rw [htr] at hx
      obtain ⟨hnv, hv, hdef⟩ := helem x hx
      rcases rf.visSound x hv with hvv | hvv
      · rw [preSt_visited] at hvv
        exact absurd hvv (Finset.not_mem_empty x)
      · exact ⟨hvv, hdef⟩
    · rintro ⟨hr, hdef⟩
      exact rf.traceCompl x (hcompl x hr)
        (by rw [preSt_visited]; exact Finset.not_mem_empty x) hdef
  have hnodup : st2.trace.Nodup := by
    refine (rf.nodupPres ?_ ?_).2
    · intro x hx
      rw [preSt_trace] at hx
      cases hx
    · rw [preSt_trace]
      exact List.nodup_nil
  have hFtrace : stF.trace = st2.trace := by rw [hF]
  have hFout : stF.out = st2.out ++ "\x7d\n" := by rw [hF]
  have hFstats : stF.stats = st2.stats := by rw [hF]
  refine ⟨by rw [hFtrace]; exact hnodup, ?_, ?_, ?_, ?_⟩
  · intro x
    rw [hFtrace]
    exact hiff x
  · rw [hFtrace, htr, hs, hstat, preSt_stats]
    omega
  · rw [hFout, ho, preSt_out, hFtrace, str_append_assoc, htr]
  · rw [hFstats, hs]

/-- `d`'s declaration occurs at a strictly earlier position than `T`'s in the
emission order `l`. -/
def appearsBefore (l : List Nat) (d T : Nat) : Prop :=
  ∃ j, j < l.length ∧ l.get? j = some T ∧ ∃ i, i < j ∧ l.get? i = some d

theorem appearsBefore_append {l l2 : List Nat} {d T : Nat}
    (h : appearsBefore l d T) : appearsBefore (l ++ l2) d T := by
  obtain ⟨j, hj, hjT, i, hij, hid⟩ := h
  refine ⟨j, ?_, ?_, i, hij, ?_⟩
  · rw [List.length_append]
    omega
  · rw [List.get?_append hj]
    exact hjT
  · rw [List.get?_append (by omega)]
    exact hid

theorem appearsBefore_concat {l : List Nat} {d T : Nat} (h : d ∈ l) :
    appearsBefore (l ++ [T]) d T := by
  obtain ⟨i, hid⟩ := List.get?_of_mem h
  have hi : i < l.length := (List.get?_eq_some.mp hid).1
  refine ⟨l.length, ?_, List.get?_concat_length l T, i, hi, ?_⟩
  · rw [List.length_append]
    simp
  · rw [List.get?_append hi]
    exact hid

theorem runFacts_grayPres {env : Env} {opts : DefinitionFileOptions}
    {reach : Nat → Prop} {st stF : EmitSt} (rf : RunFacts env opts reach st stF)
    (x : Nat) (hdef : isDefinedB env x = true) :
    (x ∈ stF.visited ∧ x ∉ stF.trace) ↔ (x ∈ st.visited ∧ x ∉ st.trace) := by
  obtain ⟨t, ht, _, _, helem⟩ := rf.traceOut
  constructor
  · rintro ⟨hv, hnt⟩
    by_cases hsv : x ∈ st.visited
    · refine ⟨hsv, ?_⟩
      intro hmem
      exact hnt (by rw [ht]; exact List.mem_append.mpr (Or.inl hmem))
    · exact absurd (rf.traceCompl x hv hsv hdef) hnt
  · rintro ⟨hv, hnt⟩
    refine ⟨rf.visMono hv, ?_⟩
    intro hmem
    rw [ht] at hmem
    rcases List.mem_append.mp hmem with hmem | hmem
    · exact hnt hmem
    · exact (helem x hmem).1 hv

theorem emitList_visits (fa : FailFn) (opts : DefinitionFileOptions) (env : Env)
    (fuel : Nat) : ∀ ds st stF,
      emitList (fun d => emitType fa opts env fuel d) ds st = Except.ok stF →
      ∀ d ∈ ds, d ∈ stF.visited := by
  intro ds
  induction ds with
  | nil =>
    intro st stF _ d hd
    cases hd
  | cons d1 ds ih =>
    intro st stF h d hd
    simp only [emitList] at h
    cases hd1 : emitType fa opts env fuel d1 st with
    | error e => rw [hd1] at h; simp [andThen] at h
    | ok stM =>
      rw [hd1] at h
      have hmono : stM.visited ⊆ stF.visited :=
        (emitList_runFacts ds
          (fun d' _ st' stF' h' => (emitType_runFacts fa opts env fuel d' st' stF' h').1)
          stM stF h).visMono
      rcases List.mem_cons.mp hd with rfl | hd
      · exact hmono (emitType_runFacts fa opts env fuel d st stM hd1).2
      · exact ih stM stF h d hd

theorem emitType_order (fa : FailFn) (opts : DefinitionFileOptions) (env : Env) :
    ∀ fuel id st stF, emitType fa opts env fuel id st = Except.ok stF →
      (∀ x ∈ st.trace, x ∈ st.visited) → st.trace.Nodup →
      (∀ x, x ∈ st.visited → isDefinedB env x = true → x ∉ st.trace →
        Reaches env x id) →
      ∀ T, T ∈ stF.trace → T ∉ st.trace →
        ∀ d ∈ (env.defn T).deps, isDefinedB env d = true →
          appearsBefore stF.trace d T ∨ Reaches env d T := by
  intro fuel
  induction fuel with
  | zero =>
    intro id st stF h
    simp [emitType] at h
  | succ fuel ih =>
    have listLemma : ∀ ds st stF,
        emitList (fun d => emitType fa opts env fuel d) ds st = Except.ok stF →
        (∀ x ∈ st.trace, x ∈ st.visited) → st.trace.Nodup →
        (∀ x, x ∈ st.visited → isDefinedB env x = true → x ∉ st.trace →
          ∀ d ∈ ds, Reaches env x d) →
        ∀ T, T ∈ stF.trace → T ∉ st.trace →
          ∀ d ∈ (env.defn T).deps, isDefinedB env d = true →
            appearsBefore stF.trace d T ∨ Reaches env d T := by
      intro ds
      induction ds with
      | nil =>
        intro st stF h _ _ _ T hT hnT
        have : st = stF := by simpa [emitList] using h
        subst this
        exact absurd hT hnT
      | cons d1 ds ihds =>
        intro st stF h hTrSub hTrNodup hGray T hT hnT d hd hdef
        simp only [emitList] at h
        cases hd1 : emitType fa opts env fuel d1 st with
        | error e => rw [hd1] at h; simp [andThen] at h
        | ok stM =>
          rw [hd1] at h
          have rfM := (emitType_runFacts fa opts env fuel d1 st stM hd1).1
          have rfRest := emitList_runFacts ds
            (fun d' _ st' stF' h' => (emitType_runFacts fa opts env fuel d' st' stF' h').1)
            stM stF h
          obtain ⟨tR, htR, _, _, _⟩ := rfRest.traceOut
          obtain ⟨hTrSubM, hTrNodupM⟩ := rfM.nodupPres hTrSub hTrNodup
          by_cases hTM : T ∈ stM.trace
          · have := ih d1 st stM hd1 hTrSub hTrNodup
              (fun x hx hxd hxt => hGray x hx hxd hxt d1 (List.mem_cons_self d1 ds))
              T hTM hnT d hd hdef
            rcases this with hbef | hreach
            · left
              rw [htR]
              exact appearsBefore_append hbef
            · exact Or.inr hreach
          · refine ihds stM stF h hTrSubM hTrNodupM ?_ T hT hTM d hd hdef
            intro x hx hxd hxt d' hd'
            have hgray := (runFacts_grayPres rfM x hxd).mp ⟨hx, hxt⟩
            exact hGray x hgray.1 hxd hgray.2 d' (List.mem_cons_of_mem d1 hd')
    intro id st stF h hTrSub hTrNodup hGray T hT hnT d hd hdef
    simp only [emitType] at h
    by_cases hv : id ∈ st.visited
    · rw [if_pos hv] at h
      have : st = stF := Except.ok.inj h
      subst this
      exact absurd hT hnT
    · rw [if_neg hv] at h
      cases hL : emitList (fun d => emitType fa opts env fuel d) (env.defn id).deps
          { st with visited := insert id st.visited } with
      | error e => rw [hL] at h; simp [andThen] at h
      | ok st2 =>
        rw [hL] at h
        have hDef : emitDef fa opts id (env.defn id).info st2 = Except.ok stF := h
        have rfList := emitList_runFacts (env.defn id).deps
          (fun d' _ st' stF' h' => (emitType_runFacts fa opts env fuel d' st' stF' h').1)
          { st with visited := insert id st.visited } st2 hL
        have hTrSub1 : ∀ x ∈ (({ st with visited := insert id st.visited } : EmitSt)).trace,
            x ∈ (({ st with visited := insert id st.visited } : EmitSt)).visited := by
          intro x hx
          exact Finset.mem_insert_of_mem (hTrSub x hx)
        have hGray1 : ∀ x, x ∈ insert id st.visited → isDefinedB env x = true →
            x ∉ st.trace → ∀ d' ∈ (env.defn id).deps, Reaches env x d' := by
          intro x hx hxd hxt d' hd'
          rcases Finset.mem_insert.mp hx with rfl | hx
          · exact Relation.ReflTransGen.single hd'
          · exact Relation.ReflTransGen.tail (hGray x hx hxd hxt) hd'
        have hListConcl := listLemma (env.defn id).deps
          { st with visited := insert id st.visited } st2 hL hTrSub1 hTrNodup hGray1
        have hVisits := emitList_visits fa opts env fuel (env.defn id).deps
          { st with visited := insert id st.visited } st2 hL
        obtain ⟨t2, ht2, _, _, he2⟩ := rfList.traceOut
        cases hInfo : (env.defn id).info with
        | Native ni =>
          rw [hInfo, emitDef_native] at hDef
          have : st2 = stF := Except.ok.inj hDef
          subst this
          exact hListConcl T hT hnT d hd hdef
        | Defined di =>
          cases di with
          | mk docs name defExpr =>
            cases name with
            | mk ndocs path nm gens =>
              rw [hInfo, emitDef_defined_char] at hDef
              cases hok : okWindow fa st2.wix
                  (defChunks opts (TypeInfo.Defined
                    (DefinedTypeInfo.mk docs (TypeName.mk ndocs path nm gens)
                      defExpr))).length with
              | false => rw [hok] at hDef; simp at hDef
              | true =>
                rw [hok, if_pos rfl] at hDef
                have hstF := Except.ok.inj hDef
                have hFtr : stF.trace = st2.trace ++ [id] := by rw [← hstF]
                rw [hFtr] at hT
                rcases List.mem_append.mp hT with hT2 | hTid
                · rcases hListConcl T hT2 hnT d hd hdef with hbef | hreach
                  · left
                    rw [hFtr]
                    exact appearsBefore_append hbef
                  · exact Or.inr hreach
                · rcases List.mem_singleton.mp hTid with rfl
                  have hdvis : d ∈ st2.visited := hVisits d hd
                  by_cases hd1 : d ∈ insert T st.visited
                  · rcases Finset.mem_insert.mp hd1 with rfl | hdst
                    · exact Or.inr Relation.ReflTransGen.refl
                    · by_cases hdt : d ∈ st.trace
                      · left
                        rw [hFtr, ht2]
                        exact appearsBefore_concat
                          (List.mem_append.mpr (Or.inl hdt))
                      · exact Or.inr (hGray d hdst hdef hdt)
                  · have : d ∈ st2.trace :=
                      rfList.traceCompl d hdvis hd1 hdef
                    left
                    rw [hFtr]
                    exact appearsBefore_concat this

theorem wd_order (fa : FailFn) (env : Env) (opts : DefinitionFileOptions)
    (root : Nat) (s : Nat) (stF : EmitSt)
    (h : writeDefinitionFile fa env opts root = Except.ok (s, stF)) :
    ∀ T ∈ stF.trace, ∀ d ∈ (env.defn T).deps, isDefinedB env d = true →
      appearsBefore stF.trace d T ∨ Reaches env d T := by
  obtain ⟨st2, hmid, _, hF⟩ := wd_parse fa env opts root s stF h
  have hFtrace : stF.trace = st2.trace := by rw [hF]
  intro T hT d hd hdef
  rw [hFtrace] at hT ⊢
  refine emitType_order fa opts env (env.size + 1) root (preSt opts) st2 hmid
    ?_ ?_ ?_ T hT ?_ d hd hdef
  · intro x hx
    rw [preSt_trace] at hx
    cases hx
  · rw [preSt_trace]
    exact List.nodup_nil
  · intro x hx
    rw [preSt_visited] at hx
    exact absurd hx (Finset.not_mem_empty x)
  · rw [preSt_trace]
    exact List.not_mem_nil T

theorem okWindow_iff (fa : FailFn) : ∀ n s, okWindow fa s n = true ↔
    ∀ i, i < n → fa (s + i) = false := by
  intro n
  induction n with
  | zero => intro s; simp [okWindow]
  | succ n ih =>
    intro s
    simp only [okWindow, Bool.and_eq_true, Bool.not_eq_true']
    constructor
    · rintro ⟨h1, h2⟩ i hi
      cases i with
      | zero => simpa using h1
      | succ i =>
        have := (ih (s + 1)).mp h2 i (by omega)
        have harith : s + 1 + i = s + (i + 1) := by omega
        rw [harith] at this
        exact this
    · intro h
      refine ⟨by simpa using h 0 (by omega), (ih (s + 1)).mpr ?_⟩
      intro i hi
      have harith : s + 1 + i = s + (i + 1) := by omega
      rw [harith]
      exact h (i + 1) (by omega)

/-- Separator-joined rendering (`x1 sep x2 sep ... sep xn`). -/
def sIntercalate (sep : String) : List String → String
  | [] => ""
  | [x] => x
  | x :: xs => x ++ sep ++ sIntercalate sep xs

/-- The text rendered for one type expression. -/
def renderExpr (opts : DefinitionFileOptions) (e : TypeExpr) : String :=
  sJoin (exprChunks opts e)

theorem sIntercalate_cons2 (sep x y : String) (ys : List String) :
    sIntercalate sep (x :: y :: ys) = x ++ sep ++ sIntercalate sep (y :: ys) := rfl

theorem sepMap_eq (sep : String) : ∀ (x : String) (xs : List String),
    sJoin ((x :: xs).map (fun y => sep ++ y)) = sep ++ sIntercalate sep (x :: xs) := by
  intro x xs
  induction xs generalizing x with
  | nil => simp [sJoin, sIntercalate, str_append_empty]
  | cons y ys ih =>
    show (sep ++ x) ++ sJoin ((y :: ys).map (fun y => sep ++ y)) = _
    rw [ih y, sIntercalate_cons2]
    simp [str_append_assoc]

theorem listSep_false (opts : DefinitionFileOptions) (sep : String) :
    ∀ es : List TypeExpr, sJoin (exprListSepChunks opts sep es false) =
      sJoin (es.map (fun e => sep ++ renderExpr opts e)) := by
  intro es
  induction es with
  | nil => rfl
  | cons e es ih =>
    show sJoin ([sep] ++ (exprChunks opts e ++ exprListSepChunks opts sep es false)) = _
    rw [sJoin_append, sJoin_append, ih]
    show (sep ++ "") ++ (sJoin (exprChunks opts e) ++ _) = _
    simp only [List.map_cons, sJoin, renderExpr]
    simp [str_append_empty, str_append_assoc]

theorem sepMap_eq2 {α : Type} (sep : String) (f : α → String) :
    ∀ (x : α) (xs : List α),
      sJoin ((x :: xs).map (fun a => sep ++ f a)) = sep ++ sIntercalate sep ((x :: xs).map f) := by
  intro x xs
  induction xs generalizing x with
  | nil => simp [sJoin, sIntercalate, str_append_empty]
  | cons y ys ih =>
    show (sep ++ f x) ++ sJoin ((y :: ys).map (fun a => sep ++ f a)) = _
    rw [ih y]
    simp only [List.map_cons]
    rw [sIntercalate_cons2]
    simp [str_append_assoc]

theorem listSep_true (opts : DefinitionFileOptions) (sep : String) :
    ∀ es : List TypeExpr, sJoin (exprListSepChunks opts sep es true) =
      sIntercalate sep (es.map (renderExpr opts)) := by
  intro es
  cases es with
  | nil => rfl
  | cons e es =>
    show sJoin ([] ++ (exprChunks opts e ++ exprListSepChunks opts sep es false)) = _
    rw [List.nil_append, sJoin_append, listSep_false]
    cases es with
    | nil =>
      simp [sJoin, sIntercalate, str_append_empty, renderExpr]
    | cons y ys =>
      rw [sepMap_eq2 sep (renderExpr opts) y ys]
      rw [List.map_cons, List.map_cons, List.map_cons, sIntercalate_cons2]
      simp [str_append_assoc, renderExpr]

/-- The text rendered for one object field. -/
def fieldRender (opts : DefinitionFileOptions) : ObjectField → String
  | ObjectField.mk docs name optional ty =>
    sJoin (docsOptChunks docs) ++ (name.name ++
      ((if optional then "?" else "") ++ (":" ++ (renderExpr opts ty ++ ";"))))

theorem objectFields_render (opts : DefinitionFileOptions) :
    ∀ fs : List ObjectField, sJoin (objectFieldsChunks opts fs) =
      sJoin (fs.map (fieldRender opts)) := by
  intro fs
  induction fs with
  | nil => rfl
  | cons f fs ih =>
    cases f with
    | mk docs name optional ty =>
      cases optional with
      | true =>
        simp [objectFieldsChunks, List.map_cons, fieldRender, renderExpr, sJoin_append,
          sJoin, ih, str_append_assoc, str_append_empty, str_empty_append]
      | false =>
        simp [objectFieldsChunks, List.map_cons, fieldRender, renderExpr, sJoin_append,
          sJoin, ih, str_append_assoc, str_append_empty, str_empty_append]

/-- The dotted namespace-path text (`a.b.c`). -/
def nsPathRender (path : List Ident) : String :=
  sIntercalate "." (path.map Ident.name)

theorem nsPath_render : ∀ path : List Ident,
    sJoin (nsPathChunks path true) = nsPathRender path := by
  have hfalse : ∀ path : List Ident, sJoin (nsPathChunks path false) =
      sJoin ((path.map Ident.name).map (fun s => "." ++ s)) := by
    intro path
    induction path with
    | nil => rfl
    | cons p ps ih =>
      show sJoin (["."] ++ (p.name :: nsPathChunks ps false)) = _
      rw [sJoin_append]
      show ("." ++ "") ++ (p.name ++ sJoin (nsPathChunks ps false)) = _
      rw [ih]
      simp [sJoin, str_append_empty, str_append_assoc]
  intro path
  cases path with
  | nil => rfl
  | cons p ps =>
    show sJoin ([] ++ (p.name :: nsPathChunks ps false)) = _
    rw [List.nil_append]
    show p.name ++ sJoin (nsPathChunks ps false) = _
    rw [hfalse ps]
    cases ps with
    | nil => simp [nsPathRender, sIntercalate, sJoin, str_append_empty]
    | cons q qs =>
      rw [List.map_cons, sepMap_eq]
      show _ = sIntercalate "." (p.name :: (q :: qs).map Ident.name)
      rw [List.map_cons, sIntercalate_cons2]
      simp [str_append_assoc]

theorem headerLines_render : ∀ ls : List String,
    sJoin (headerLinesChunks ls) = sJoin (ls.map (fun l => "// " ++ l ++ "\n")) := by
  intro ls
  induction ls with
  | nil => rfl
  | cons l ls ih =>
    show ("// " ++ l ++ "\n") ++ sJoin (headerLinesChunks ls) = _
    rw [ih]
    rfl

theorem preSt_card {env : Env} (opts : DefinitionFileOptions) :
    (Finset.range env.size \ (preSt opts).visited).card < env.size + 1 := by
  rw [preSt_visited, Finset.sdiff_empty, Finset.card_range]
  omega

theorem preSt_bound {env : Env} (opts : DefinitionFileOptions) :
    ∀ v ∈ (preSt opts).visited, v < env.size := by
  intro v hv
  rw [preSt_visited] at hv
  exact absurd hv (Finset.not_mem_empty v)

theorem wd_ne_fuelOut (fa : FailFn) (env : Env) (opts : DefinitionFileOptions)
    (root : Nat) (hwf : EnvWF env) (hroot : root < env.size) :
    writeDefinitionFile fa env opts root ≠ Except.error EmitErr.fuelOut := by
  intro hcontra
  simp only [writeDefinitionFile] at hcontra
  rw [andThen_assoc4, pre_char fa opts] at hcontra
  cases hok : okWindow fa initSt.wix (preChunks opts).length with
  | false =>
    rw [hok] at hcontra
    simp [andThen] at hcontra
  | true =>
    rw [hok, if_pos rfl] at hcontra
    have hcontra2 : (match emitType fa opts env (env.size + 1) root (preSt opts) with
        | Except.error e => Except.error e
        | Except.ok st =>
          match write fa "\x7d\n" st with
          | Except.error e => Except.error e
          | Except.ok stFin => Except.ok (st.stats, stFin)) =
        (Except.error EmitErr.fuelOut : Except EmitErr (Nat × EmitSt)) := hcontra
    cases hmid : emitType fa opts env (env.size + 1) root (preSt opts) with
    | error e =>
      rw [hmid] at hcontra2
      have he : e = EmitErr.fuelOut := by
        simp at hcontra2
        exact hcontra2
      subst he
      exact emitType_no_fuelOut hwf fa opts (env.size + 1) root (preSt opts) hroot
        (preSt_bound opts) (preSt_card opts) hmid
    | ok st2 =>
      rw [hmid] at hcontra2
      have hcontra3 : (match write fa "\x7d\n" st2 with
          | Except.error e => Except.error e
          | Except.ok stFin => Except.ok (st2.stats, stFin)) =
          (Except.error EmitErr.fuelOut : Except EmitErr (Nat × EmitSt)) := hcontra2
      cases hw : write fa "\x7d\n" st2 with
      | error e =>
        rw [hw] at hcontra3
        simp only [write] at hw
        cases hfa : fa st2.wix with
        | true =>
          rw [hfa, if_pos rfl] at hw
          have he : EmitErr.writeFailed = e := Except.error.inj hw
          rw [← he] at hcontra3
          simp at hcontra3
        | false =>
          rw [hfa] at hw
          rw [if_neg (by simp)] at hw
          simp at hw
      | ok stFin =>
        rw [hw] at hcontra3
        simp at hcontra3

theorem wd_allOk_ok (env : Env) (opts : DefinitionFileOptions) (root : Nat)
    (hwf : EnvWF env) (hroot : root < env.size) :
    ∃ r, writeDefinitionFile allOk env opts root = Except.ok r := by
  simp only [writeDefinitionFile]
  rw [andThen_assoc4, pre_char allOk opts, okWindow_allOk, if_pos rfl]
  cases hmid : emitType allOk opts env (env.size + 1) root (preSt opts) with
  | error e =>
    cases e with
    | writeFailed =>
      exact absurd hmid (emitType_allOk_ne_writeFailed opts env (env.size + 1) root
        (preSt opts))
    | fuelOut =>
      exact absurd hmid (emitType_no_fuelOut hwf allOk opts (env.size + 1) root
        (preSt opts) hroot (preSt_bound opts) (preSt_card opts))
  | ok st2 =>
    have hw : write allOk "\x7d\n" st2 =
        Except.ok { st2 with out := st2.out ++ "\x7d\n", wix := st2.wix + 1 } := by
      simp [write, allOk]
    show ∃ r, (match emitType allOk opts env (env.size + 1) root (preSt opts) with
      | Except.error e => Except.error e
      | Except.ok st =>
        match write allOk "\x7d\n" st with
        | Except.error e => Except.error e
        | Except.ok stFin => Except.ok (st.stats, stFin)) = Except.ok r
    rw [hmid]
    show ∃ r, (match write allOk "\x7d\n" st2 with
      | Except.error e => Except.error e
      | Except.ok stFin => Except.ok (st2.stats, stFin)) = Except.ok r
    rw [hw]
    exact ⟨_, rfl⟩

theorem wd_simulation (env : Env) (opts : DefinitionFileOptions) (root : Nat)
    (s0 : Nat) (stF0 : EmitSt)
    (h : writeDefinitionFile allOk env opts root = Except.ok (s0, stF0)) :
    ∀ fa, writeDefinitionFile fa env opts root =
      if okWindow fa 0 stF0.wix then Except.ok (s0, stF0)
      else Except.error EmitErr.writeFailed := by
  obtain ⟨st2, hmid, hs, hF⟩ := wd_parse allOk env opts root s0 stF0 h
  obtain ⟨hle, hsimf⟩ := (emitType_simChar opts env (env.size + 1) root) (preSt opts) st2 hmid
  have hpw : (preSt opts).wix = (preChunks opts).length := preSt_wix opts
  have hwF : stF0.wix = st2.wix + 1 := by rw [hF]
  have hlen1 : (preChunks opts).length ≤ st2.wix := by
    rw [← hpw]
    exact hle
  have hsplit : stF0.wix = (preChunks opts).length +
      ((st2.wix - (preChunks opts).length) + 1) := by omega
  have hsimf2 : ∀ fb, emitType fb opts env (env.size + 1) root (preSt opts) =
      if okWindow fb (preSt opts).wix (st2.wix - (preSt opts).wix) then Except.ok st2
      else Except.error EmitErr.writeFailed := fun fb => hsimf fb
  intro fa
  simp only [writeDefinitionFile]
  rw [andThen_assoc4, pre_char fa opts]
  have hinit : initSt.wix = 0 := rfl
  rw [hinit]
  rw [hsplit, okWindow_add]
  cases hok1 : okWindow fa 0 (preChunks opts).length with
  | false =>
    rw [if_neg (by simp)]
    simp [andThen]
  | true =>
    rw [if_pos rfl]
    have h2 : (match emitType fa opts env (env.size + 1) root (preSt opts) with
        | Except.error e => Except.error e
        | Except.ok st =>
          match write fa "\x7d\n" st with
          | Except.error e => Except.error e
          | Except.ok stFin => Except.ok (st.stats, stFin)) =
        (if okWindow fa (0 + (preChunks opts).length)
            ((st2.wix - (preChunks opts).length) + 1) then Except.ok (s0, stF0)
         else (Except.error EmitErr.writeFailed : Except EmitErr (Nat × EmitSt))) := by
      rw [hsimf2 fa]
      rw [okWindow_add]
      have hz : (0 : Nat) + (preChunks opts).length = (preChunks opts).length := by omega
      rw [hz]
      have hpsw : (preSt opts).wix = (preChunks opts).length := hpw
      rw [hpsw]
      cases hok2 : okWindow fa (preChunks opts).length
          (st2.wix - (preChunks opts).length) with
      | false =>
        rw [if_neg (by simp)]
        rw [if_neg (by simp)]
      | true =>
        rw [if_pos rfl]
        have harith : (preChunks opts).length + (st2.wix - (preChunks opts).length)
            = st2.wix := by omega
        rw [harith]
        show (match write fa "\x7d\n" st2 with
          | Except.error e => Except.error e
          | Except.ok stFin => Except.ok (st2.stats, stFin)) = _
        simp only [write]
        cases hlast : fa st2.wix with
        | true =>
          rw [if_pos (by simp)]
          rw [if_neg (by simp [okWindow, hlast])]
        | false =>
          rw [if_neg (by simp)]
          rw [if_pos (by simp [okWindow, hlast])]
          show Except.ok (st2.stats, _) = _
          rw [hF, hs]
    exact h2

theorem str_data_append (a b : String) : (a ++ b).data = a.data ++ b.data := by
  cases a with
  | mk x =>
    cases b with
    | mk y => rfl

theorem str_eq_of_data {a b : String} (h : a.data = b.data) : a = b := by
  cases a with
  | mk x =>
    cases b with
    | mk y =>
      rw [show (String.mk x).data = x from rfl, show (String.mk y).data = y from rfl] at h
      rw [h]

/-- Dotted join of character lists (`a.b.c`). -/
def dottedL : List (List Char) → List Char
  | [] => []
  | [x] => x
  | x :: y :: ys => x ++ '.' :: dottedL (y :: ys)

theorem sInter_dot_data : (ss : List String) →
    (sIntercalate "." ss).data = dottedL (ss.map String.data)
  | [] => rfl
  | [x] => rfl
  | x :: y :: ys => by
    show (x ++ "." ++ sIntercalate "." (y :: ys)).data =
      x.data ++ '.' :: dottedL ((y :: ys).map String.data)
    rw [str_data_append, str_data_append, sInter_dot_data (y :: ys)]
    show (x.data ++ ['.']) ++ _ = _
    simp

/-- Dot-terminated join of character lists (`a.b.c.`). -/
def pathDotsL : List (List Char) → List Char
  | [] => []
  | x :: xs => x ++ '.' :: pathDotsL xs

theorem pathDots_data : ∀ path : List Ident,
    (sJoin (pathDotsChunks path)).data =
      pathDotsL (path.map (fun p => p.name.data)) := by
  intro path
  induction path with
  | nil => rfl
  | cons p ps ih =>
    show (p.name ++ ("." ++ sJoin (pathDotsChunks ps))).data = _
    rw [str_data_append, str_data_append, ih]
    show p.name.data ++ (['.'] ++ _) = _
    simp only [List.singleton_append]
    rfl

theorem noDotSplit : ∀ (a : List Char), ∀ (b r1 r2 : List Char), '.' ∉ a → '.' ∉ b →
    a ++ '.' :: r1 = b ++ '.' :: r2 → a = b ∧ r1 = r2 := by
  intro a
  induction a with
  | nil =>
    intro b r1 r2 _ hb h
    cases b with
    | nil =>
      simp only [List.nil_append] at h
      exact ⟨rfl, (List.cons.inj h).2⟩
    | cons c bs =>
      simp only [List.nil_append, List.cons_append] at h
      obtain ⟨hc, _⟩ := List.cons.inj h
      exact absurd (hc ▸ List.mem_cons_self c bs) hb
  | cons c as ih =>
    intro b r1 r2 ha hb h
    cases b with
    | nil =>
      simp only [List.cons_append, List.nil_append] at h
      obtain ⟨hc, _⟩ := List.cons.inj h
      exact absurd (hc ▸ List.mem_cons_self c as) ha
    | cons d bs =>
      simp only [List.cons_append] at h
      obtain ⟨hcd, htail⟩ := List.cons.inj h
      have ha2 : '.' ∉ as := fun hm => ha (List.mem_cons_of_mem c hm)
      have hb2 : '.' ∉ bs := fun hm => hb (List.mem_cons_of_mem d hm)
      obtain ⟨h1, h2⟩ := ih bs r1 r2 ha2 hb2 htail
      exact ⟨by rw [hcd, h1], h2⟩

theorem dottedL_inj : (xs : List (List Char)) → (ys : List (List Char)) →
    (∀ x ∈ xs, '.' ∉ x) → (∀ y ∈ ys, '.' ∉ y) → xs ≠ [] → ys ≠ [] →
    dottedL xs = dottedL ys → xs = ys
  | [], _, _, _, hne, _, _ => absurd rfl hne
  | _ :: _, [], _, _, _, hne, _ => absurd rfl hne
  | [x], [y], _, _, _, _, h => by
    rw [show dottedL [x] = x from rfl, show dottedL [y] = y from rfl] at h
    rw [h]
  | [x], y :: y2 :: ys, hx, _, _, _, h => by
    rw [show dottedL [x] = x from rfl,
      show dottedL (y :: y2 :: ys) = y ++ '.' :: dottedL (y2 :: ys) from rfl] at h
    have hdot : '.' ∈ x := by
      rw [h]
      exact List.mem_append.mpr (Or.inr (List.mem_cons_self _ _))
    exact absurd hdot (hx x (List.mem_cons_self _ _))
  | x :: x2 :: xs, [y], _, hy, _, _, h => by
    rw [show dottedL [y] = y from rfl,
      show dottedL (x :: x2 :: xs) = x ++ '.' :: dottedL (x2 :: xs) from rfl] at h
    have hdot : '.' ∈ y := by
      rw [← h]
      exact List.mem_append.mpr (Or.inr (List.mem_cons_self _ _))
    exact absurd hdot (hy y (List.mem_cons_self _ _))
  | x :: x2 :: xs, y :: y2 :: ys, hx, hy, _, _, h => by
    rw [show dottedL (x :: x2 :: xs) = x ++ '.' :: dottedL (x2 :: xs) from rfl,
      show dottedL (y :: y2 :: ys) = y ++ '.' :: dottedL (y2 :: ys) from rfl] at h
    obtain ⟨h1, h2⟩ := noDotSplit x y (dottedL (x2 :: xs)) (dottedL (y2 :: ys))
      (hx x (List.mem_cons_self _ _)) (hy y (List.mem_cons_self _ _)) h
    have hrest := dottedL_inj (x2 :: xs) (y2 :: ys)
      (fun z hz => hx z (List.mem_cons_of_mem x hz))
      (fun z hz => hy z (List.mem_cons_of_mem y hz))
      (by simp) (by simp) h2
    rw [h1, hrest]

theorem pathDotsL_inj : ∀ (xs : List (List Char)), ∀ (ys : List (List Char)),
    (∀ x ∈ xs, '.' ∉ x) → (∀ y ∈ ys, '.' ∉ y) →
    pathDotsL xs = pathDotsL ys → xs = ys := by
  intro xs
  induction xs with
  | nil =>
    intro ys _ _ h
    cases ys with
    | nil => rfl
    | cons y ys =>
      rw [show pathDotsL [] = [] from rfl,
        show pathDotsL (y :: ys) = y ++ '.' :: pathDotsL ys from rfl] at h
      have := congrArg List.length h
      simp only [List.length_nil, List.length_append, List.length_cons] at this
      omega
  | cons x xs ih =>
    intro ys hx hy h
    cases ys with
    | nil =>
      rw [show pathDotsL [] = [] from rfl,
        show pathDotsL (x :: xs) = x ++ '.' :: pathDotsL xs from rfl] at h
      have := congrArg List.length h
      simp only [List.length_nil, List.length_append, List.length_cons] at this
      omega
    | cons y ys =>
      rw [show pathDotsL (x :: xs) = x ++ '.' :: pathDotsL xs from rfl,
        show pathDotsL (y :: ys) = y ++ '.' :: pathDotsL ys from rfl] at h
      obtain ⟨h1, h2⟩ := noDotSplit x y (pathDotsL xs) (pathDotsL ys)
        (hx x (List.mem_cons_self _ _)) (hy y (List.mem_cons_self _ _)) h
      have hrest := ih ys (fun z hz => hx z (List.mem_cons_of_mem x hz))
        (fun z hz => hy z (List.mem_cons_of_mem y hz)) h2
      rw [h1, hrest]

theorem identList_eq : ∀ (xs ys : List Ident),
    xs.map (fun p => p.name.data) = ys.map (fun p => p.name.data) → xs = ys := by
  intro xs
  induction xs with
  | nil =>
    intro ys h
    cases ys with
    | nil => rfl
    | cons y ys => simp at h
  | cons x xs ih =>
    intro ys h
    cases ys with
    | nil => simp at h
    | cons y ys =>
      simp only [List.map_cons, List.cons.injEq] at h
      obtain ⟨h1, h2⟩ := h
      have hnames : x.name = y.name := str_eq_of_data h1
      have hxy : x = y := by
        cases x with
        | mk nx =>
          cases y with
          | mk ny => exact congrArg Ident.mk hnames
      rw [hxy, ih ys h2]

/-- The identifier contains no `.` character (the code never validates this;
it is the precondition under which namespace paths render unambiguously). -/
def DotFreeIdent (i : Ident) : Prop := '.' ∉ i.name.data

theorem nsPathRender_inj {p1 p2 : List Ident}
    (h1 : ∀ i ∈ p1, DotFreeIdent i) (h2 : ∀ i ∈ p2, DotFreeIdent i)
    (hne1 : p1 ≠ []) (hne2 : p2 ≠ [])
    (heq : nsPathRender p1 = nsPathRender p2) : p1 = p2 := by
  have hdata := congrArg String.data heq
  rw [nsPathRender, nsPathRender, sInter_dot_data, sInter_dot_data] at hdata
  rw [List.map_map, List.map_map] at hdata
  have := dottedL_inj (p1.map (String.data ∘ Ident.name)) (p2.map (String.data ∘ Ident.name))
    (by intro x hx
        obtain ⟨i, hi, rfl⟩ := List.mem_map.mp hx
        exact h1 i hi)
    (by intro x hx
        obtain ⟨i, hi, rfl⟩ := List.mem_map.mp hx
        exact h2 i hi)
    (by simpa using hne1) (by simpa using hne2) hdata
  exact identList_eq p1 p2 this

theorem pathDotsRender_inj {p1 p2 : List Ident}
    (h1 : ∀ i ∈ p1, DotFreeIdent i) (h2 : ∀ i ∈ p2, DotFreeIdent i)
    (heq : sJoin (pathDotsChunks p1) = sJoin (pathDotsChunks p2)) : p1 = p2 := by
  have hdata := congrArg String.data heq
  rw [pathDots_data, pathDots_data] at hdata
  have := pathDotsL_inj (p1.map (fun p => p.name.data)) (p2.map (fun p => p.name.data))
    (by intro x hx
        obtain ⟨i, hi, rfl⟩ := List.mem_map.mp hx
        exact h1 i hi)
    (by intro x hx
        obtain ⟨i, hi, rfl⟩ := List.mem_map.mp hx
        exact h2 i hi)
    hdata
  exact identList_eq p1 p2 this

theorem str_append_cancel_left {a x y : String} (h : a ++ x = a ++ y) : x = y := by
  have hdata := congrArg String.data h
  rw [str_data_append, str_data_append] at hdata
  exact str_eq_of_data (List.append_cancel_left hdata)

theorem str_append_cancel_right {x y a : String} (h : x ++ a = y ++ a) : x = y := by
  have hdata := congrArg String.data h
  rw [str_data_append, str_data_append] at hdata
  exact str_eq_of_data (List.append_cancel_right hdata)

theorem nameChunks_decomp (opts : DefinitionFileOptions) (docs : Option Docs)
    (path : List Ident) (nm : Ident) (gens : List TypeExpr) :
    sJoin (nameChunks opts (TypeName.mk docs path nm gens)) =
      sJoin (docsOptChunks docs) ++ (sJoin (pathDotsChunks path) ++ (nm.name ++
        sJoin (if gens.isEmpty then []
               else "<" :: (exprListSepChunks opts "," gens true ++ [">"])))) := by
  show sJoin (docsOptChunks docs ++ (pathDotsChunks path ++ (nm.name ::
    (if gens.isEmpty then []
     else "<" :: (exprListSepChunks opts "," gens true ++ [">"]))))) = _
  rw [sJoin_append, sJoin_append]
  rfl


/-! ### Decidability of the wellformedness and dot-freeness predicates -/

instance decEnvWF (env : Env) : Decidable (EnvWF env) :=
  inferInstanceAs (Decidable (∀ i, i < env.size → ∀ d ∈ (env.defn i).deps, d < env.size))

instance decDotFreeIdent (i : Ident) : Decidable (DotFreeIdent i) :=
  inferInstanceAs (Decidable ¬('.' ∈ i.name.data))

/-! ### Concrete environments and runs -/

/-- Options with no header and the root namespace `types`. -/
def optsPlain : DefinitionFileOptions := { header := none, root_namespace := "types" }

/-- A bare type name `A` (empty path, no docs, no generics). -/
def nmA : TypeName := TypeName.mk none [] (Ident.mk "A") []

/-- A bare type name `B` (empty path, no docs, no generics). -/
def nmB : TypeName := TypeName.mk none [] (Ident.mk "B") []

/-- An empty union (renders `never`), used as a placeholder body. -/
def dummyExpr : TypeExpr := TypeExpr.Union (Union.mk none [])

/-- The cyclic two-type universe: `A` (id 0) lists `B` (id 1) as a dependency
and its body references `B`; symmetrically `B` depends on and references
`A`. -/
def cycEnv : Env :=
  { size := 2
    defn := fun i =>
      if i = 0 then
        { deps := [1]
          info := TypeInfo.Defined (DefinedTypeInfo.mk none nmA
            (TypeExpr.Ref (TypeInfo.Defined (DefinedTypeInfo.mk none nmB dummyExpr)))) }
      else
        { deps := [0]
          info := TypeInfo.Defined (DefinedTypeInfo.mk none nmB
            (TypeExpr.Ref (TypeInfo.Defined (DefinedTypeInfo.mk none nmA dummyExpr)))) } }

/-- The final state of the successful run on `cycEnv` from root `0`. -/
def cycStF : EmitSt :=
  { out := "export default types;\nexport namespace types\x7b\nexport type B=types.A;\nexport type A=types.B;\n\x7d\n"
    visited := {1, 0}
    stats := 2
    trace := [1, 0]
    wix := 17 }

theorem cycRun_eq : writeDefinitionFile allOk cycEnv optsPlain 0 = Except.ok (2, cycStF) := by
  simp [writeDefinitionFile, emitType, emitList, emitDef, emitExpr, emitTypeName,
    emitTypeString, emitDocsOpt, emitIdent, emitPathDots, emitExprListSep, emitNsPath,
    write, andThen, initSt, allOk, cycEnv, optsPlain, nmA, nmB, dummyExpr, cycStF]

/-- The acyclic two-type universe: `A` (id 0) depends on and references `B`
(id 1); `B` has no dependencies and the body `never`. -/
def acyEnv : Env :=
  { size := 2
    defn := fun i =>
      if i = 0 then
        { deps := [1]
          info := TypeInfo.Defined (DefinedTypeInfo.mk none nmA
            (TypeExpr.Ref (TypeInfo.Defined (DefinedTypeInfo.mk none nmB dummyExpr)))) }
      else
        { deps := []
          info := TypeInfo.Defined (DefinedTypeInfo.mk none nmB dummyExpr) } }

/-- The final state of the successful run on `acyEnv` from root `0`. -/
def acyStF : EmitSt :=
  { out := "export default types;\nexport namespace types\x7b\nexport type B=never;\nexport type A=types.B;\n\x7d\n"
    visited := {1, 0}
    stats := 2
    trace := [1, 0]
    wix := 16 }

theorem acyRun_eq : writeDefinitionFile allOk acyEnv optsPlain 0 = Except.ok (2, acyStF) := by
  simp [writeDefinitionFile, emitType, emitList, emitDef, emitExpr, emitTypeName,
    emitTypeString, emitDocsOpt, emitIdent, emitPathDots, emitExprListSep, emitNsPath,
    emitUnion, write, andThen, initSt, allOk, acyEnv, optsPlain, nmA, nmB, dummyExpr, acyStF]

/-- No dependency edge closes a cycle: no dependency of `a` reaches back to
`a`. -/
def AcyclicDeps (env : Env) : Prop :=
  ∀ a b, b ∈ (env.defn a).deps → ¬ Reaches env b a

theorem acyEnv_acyclic : AcyclicDeps acyEnv := by
  intro a b hdep hreach
  have hab : a = 0 ∧ b = 1 := by
    by_cases ha : a = 0
    · subst ha
      simp [acyEnv] at hdep
      exact ⟨rfl, hdep⟩
    · simp [acyEnv, ha] at hdep
  obtain ⟨rfl, rfl⟩ := hab
  rcases Relation.ReflTransGen.cases_head hreach with h10 | ⟨c, hc, _⟩
  · exact absurd h10 (by decide)
  · simp [step, acyEnv] at hc

/-! ### Claim C1: exactly-once emission -/

/-- Claim C1: on every successful run each reachable Defined type identity is
emitted exactly once (the emission trace is duplicate-free and contains
exactly the ids that are reachable from the root and Defined), and the
visited set is checked and the identity recorded before recursing: a visited
id returns immediately, an unvisited id is inserted into the visited set
before its dependencies are walked and its own declaration emitted. -/
theorem emitted_exactly_once :
    (∀ fa env opts root s stF,
      writeDefinitionFile fa env opts root = Except.ok (s, stF) →
        stF.trace.Nodup ∧
        (∀ x, x ∈ stF.trace ↔ (Reaches env root x ∧ isDefinedB env x = true))) ∧
    (∀ fa opts env fuel id st, id ∈ st.visited →
      emitType fa opts env (fuel + 1) id st = Except.ok st) ∧
    (∀ fa opts env fuel id st, id ∉ st.visited →
      emitType fa opts env (fuel + 1) id st =
        andThen
          (emitList (fun d => emitType fa opts env fuel d) (env.defn id).deps
            { st with visited := insert id st.visited })
          (emitDef fa opts id (env.defn id).info)) := by
  refine ⟨?_, ?_, ?_⟩
  · intro fa env opts root s stF h
    obtain ⟨h1, h2, _, _, _⟩ := wd_main_facts fa env opts root s stF h
    exact ⟨h1, h2⟩
  · intro fa opts env fuel id st hvis
    simp [emitType, hvis]
  · intro fa opts env fuel id st hvis
    simp [emitType, hvis]

theorem emitted_exactly_once_witness :
    writeDefinitionFile allOk cycEnv optsPlain 0 = Except.ok (2, cycStF) ∧
    cycStF.trace.Nodup ∧
    (∀ x, x ∈ cycStF.trace ↔ (Reaches cycEnv 0 x ∧ isDefinedB cycEnv x = true)) :=
  ⟨cycRun_eq, (emitted_exactly_once.1 allOk cycEnv optsPlain 0 2 cycStF cycRun_eq).1,
    (emitted_exactly_once.1 allOk cycEnv optsPlain 0 2 cycStF cycRun_eq).2⟩

/-! ### Claim C2: termination on cycles -/

/-- Claim C2: on every wellformed universe the run never exhausts its
recursion fuel (no divergence), and on the concrete two-type cycle
(`A` depends on `B`, `B` on `A`) the run completes, producing exactly two
declarations, each referencing the other by qualified name only
(`types.A` / `types.B`, no inline unfolding of the referenced body). -/
theorem cyclic_run_terminates :
    (∀ fa env opts root, EnvWF env → root < env.size →
      writeDefinitionFile fa env opts root ≠ Except.error EmitErr.fuelOut) ∧
    writeDefinitionFile allOk cycEnv optsPlain 0 = Except.ok (2, cycStF) ∧
    cycStF.out = "export default types;\nexport namespace types\x7b\nexport type B=types.A;\nexport type A=types.B;\n\x7d\n" ∧
    cycStF.trace = [1, 0] := by
  refine ⟨?_, cycRun_eq, rfl, rfl⟩
  intro fa env opts root hwf hroot
  exact wd_ne_fuelOut fa env opts root hwf hroot

theorem cyclic_run_terminates_witness :
    EnvWF cycEnv ∧ 0 < cycEnv.size ∧
    writeDefinitionFile allOk cycEnv optsPlain 0 ≠ Except.error EmitErr.fuelOut :=
  ⟨by decide, by decide,
    cyclic_run_terminates.1 allOk cycEnv optsPlain 0 (by decide) (by decide)⟩

/-! ### Claim C3: dependency-before-self ordering -/

theorem cyc_not_before : ¬ appearsBefore [1, 0] 0 1 := by
  rintro ⟨j, hj, hjT, i, hij, _⟩
  have hj2 : j < 2 := by simpa using hj
  interval_cases j
  · omega
  · exact absurd hjT (by decide)

/-- Claim C3, counterexample to the unconditional statement: in the cyclic
two-type universe the successful run emits `B` (id 1) with its direct
Defined dependency `A` (id 0) appearing only later, so `B`'s declaration
does textually precede that of a type it directly depends on. -/
theorem dep_order_violated_on_cycle :
    writeDefinitionFile allOk cycEnv optsPlain 0 = Except.ok (2, cycStF) ∧
    cycStF.trace = [1, 0] ∧
    (1 : Nat) ∈ cycStF.trace ∧ (0 : Nat) ∈ (cycEnv.defn 1).deps ∧
    isDefinedB cycEnv 0 = true ∧
    ¬ appearsBefore cycStF.trace 0 1 :=
  ⟨cycRun_eq, rfl, by decide, by decide, by decide, cyc_not_before⟩

/-- Claim C3 (amended: restricted to universes whose dependency edges close
no cycle): on every successful run, every Defined direct dependency `d` of
an emitted type `T` has its declaration at a strictly earlier position of
the emission order than `T`'s own declaration (Native dependencies exempt;
dependencies are walked in declared order and `T` is emitted post-order). -/
theorem dep_emitted_before_self (fa : FailFn) (env : Env)
    (opts : DefinitionFileOptions) (root : Nat) (s : Nat) (stF : EmitSt)
    (hacy : AcyclicDeps env)
    (h : writeDefinitionFile fa env opts root = Except.ok (s, stF)) :
    ∀ T ∈ stF.trace, ∀ d ∈ (env.defn T).deps, isDefinedB env d = true →
      appearsBefore stF.trace d T := by
  intro T hT d hd hdef
  rcases wd_order fa env opts root s stF h T hT d hd hdef with hb | hr
  · exact hb
  · exact absurd hr (hacy T d hd)

theorem dep_emitted_before_self_witness :
    AcyclicDeps acyEnv ∧
    writeDefinitionFile allOk acyEnv optsPlain 0 = Except.ok (2, acyStF) ∧
    appearsBefore acyStF.trace 1 0 :=
  ⟨acyEnv_acyclic, acyRun_eq,
    dep_emitted_before_self allOk acyEnv optsPlain 0 2 acyStF acyEnv_acyclic acyRun_eq
      0 (by decide) 1 (by decide) (by decide)⟩

/-! ### Claim C4: namespace path wrapping and uniqueness -/

/-- A name with the single path segment `a.b` (an identifier containing a
dot; the code performs no validation of identifiers). -/
def cexName1 : TypeName := TypeName.mk none [Ident.mk "a.b"] (Ident.mk "Foo") []

/-- A name with the two path segments `a`, `b`. -/
def cexName2 : TypeName := TypeName.mk none [Ident.mk "a", Ident.mk "b"] (Ident.mk "Foo") []

def cexInfo1 : TypeInfo := TypeInfo.Defined (DefinedTypeInfo.mk none cexName1 dummyExpr)

def cexInfo2 : TypeInfo := TypeInfo.Defined (DefinedTypeInfo.mk none cexName2 dummyExpr)

/-- A name whose single dot-free path segment imitates the rendering of a
name-docs block followed by the segment `b`. -/
def cexName3 : TypeName :=
  TypeName.mk none [Ident.mk "\n/**\n * x\n */\nb"] (Ident.mk "Foo") []

/-- A name with name-docs `x` and the single dot-free path segment `b`. -/
def cexName4 : TypeName := TypeName.mk (some (Docs.mk "x")) [Ident.mk "b"] (Ident.mk "Foo") []

def cexInfo3 : TypeInfo := TypeInfo.Defined (DefinedTypeInfo.mk none cexName3 dummyExpr)

def cexInfo4 : TypeInfo := TypeInfo.Defined (DefinedTypeInfo.mk none cexName4 dummyExpr)

/-- Claim C4, counterexamples to the uniqueness part.  First: the path made
of the one segment `a.b` and the path made of the two segments `a`, `b` are
different non-empty paths carrying the same bare name, yet they produce
byte-identical declaration text and byte-identical qualified references, so
the namespace blocks and the references collide.  Second: dot-freeness of
the segments alone does not repair the claim, because identifiers are also
free to imitate a docs block: the names `cexName3` (no docs, one dot-free
segment that spells out a doc comment followed by `b`) and `cexName4`
(name-docs `x`, the dot-free segment `b`) have different non-empty dot-free
paths and the same bare name yet render byte-identical qualified
references; this forces the identical-name-docs hypothesis of the
amendment. -/
theorem namespace_collision_with_dotted_ident :
    (cexName1.path ≠ cexName2.path ∧ cexName1.path ≠ [] ∧ cexName2.path ≠ [] ∧
     cexName1.name = cexName2.name ∧
     sJoin (defChunks optsPlain cexInfo1) = sJoin (defChunks optsPlain cexInfo2) ∧
     sJoin (exprChunks optsPlain (TypeExpr.Ref cexInfo1)) =
       sJoin (exprChunks optsPlain (TypeExpr.Ref cexInfo2))) ∧
    (cexName3.path ≠ cexName4.path ∧ cexName3.path ≠ [] ∧ cexName4.path ≠ [] ∧
     (∀ i ∈ cexName3.path, DotFreeIdent i) ∧ (∀ i ∈ cexName4.path, DotFreeIdent i) ∧
     cexName3.name = cexName4.name ∧
     sJoin (exprChunks optsPlain (TypeExpr.Ref cexInfo3)) =
       sJoin (exprChunks optsPlain (TypeExpr.Ref cexInfo4))) :=
  ⟨⟨by decide, by decide, by decide, rfl, by decide, by decide⟩,
    ⟨by decide, by decide, by decide, by decide, by decide, rfl, by decide⟩⟩

/-- The two dot-free one-segment paths `a` and `b`. -/
def dfPathA : List Ident := [Ident.mk "a"]

def dfPathB : List Ident := [Ident.mk "b"]

/-- Claim C4 (amended): a Defined type with a non-empty path has its
declaration wrapped in a single exported namespace header carrying the
dot-joined path, closed after the declaration (this part needs no
precondition).  The uniqueness part holds under the preconditions that the
path segments are dot-free and the two names carry identical name-docs and
identical generic arguments: then different non-empty paths give distinct
namespace headers, and two Defined types with the same bare name but
different paths give distinct qualified reference text.  Both preconditions
on the reference part are used: without dot-freeness the first collision of
the counterexample applies, and without identical name-docs the second
(docs text imitating a path segment) applies. -/
theorem namespace_wrapping_and_uniqueness :
    (∀ opts docs ndocs path nm gens defExpr, path ≠ [] →
      sJoin (defChunks opts (TypeInfo.Defined
          (DefinedTypeInfo.mk docs (TypeName.mk ndocs path nm gens) defExpr))) =
        sJoin (docsOptChunks docs) ++
          ("export namespace " ++ nsPathRender path ++ "\x7b" ++
           "export type " ++ sJoin (nameChunks opts (TypeName.mk ndocs [] nm gens)) ++
           "=" ++ renderExpr opts defExpr ++ ";" ++ "\x7d" ++ "\n")) ∧
    (∀ p1 p2, (∀ i ∈ p1, DotFreeIdent i) → (∀ i ∈ p2, DotFreeIdent i) →
      p1 ≠ [] → p2 ≠ [] → p1 ≠ p2 →
      "export namespace " ++ nsPathRender p1 ≠ "export namespace " ++ nsPathRender p2) ∧
    (∀ opts ndocs p1 p2 nm gens dd1 dd2 de1 de2,
      (∀ i ∈ p1, DotFreeIdent i) → (∀ i ∈ p2, DotFreeIdent i) → p1 ≠ p2 →
      sJoin (exprChunks opts (TypeExpr.Ref (TypeInfo.Defined
        (DefinedTypeInfo.mk dd1 (TypeName.mk ndocs p1 nm gens) de1)))) ≠
      sJoin (exprChunks opts (TypeExpr.Ref (TypeInfo.Defined
        (DefinedTypeInfo.mk dd2 (TypeName.mk ndocs p2 nm gens) de2))))) := by
  refine ⟨?_, ?_, ?_⟩
  · intro opts docs ndocs path nm gens defExpr hp
    cases path with
    | nil => exact absurd rfl hp
    | cons i is =>
      rw [← nsPath_render (i :: is)]
      simp only [defChunks, List.isEmpty_cons, Bool.false_eq_true, if_false]
      simp [sJoin_append, sJoin, str_append_empty, str_empty_append, str_append_assoc,
        renderExpr]
      rw [show ("\x7bexport type " : String) = "\x7b" ++ "export type " from rfl,
        str_append_assoc]
  · intro p1 p2 h1 h2 hne1 hne2 hne heq
    exact hne (nsPathRender_inj h1 h2 hne1 hne2 (str_append_cancel_left heq))
  · intro opts ndocs p1 p2 nm gens dd1 dd2 de1 de2 h1 h2 hne heq
    simp only [exprChunks, sJoin] at heq
    have heq1 := str_append_cancel_left heq
    rw [nameChunks_decomp, nameChunks_decomp] at heq1
    have heq2 := str_append_cancel_left heq1
    have heq3 := str_append_cancel_right heq2
    exact hne (pathDotsRender_inj h1 h2 heq3)

theorem namespace_wrapping_and_uniqueness_witness :
    dfPathA ≠ [] ∧ dfPathB ≠ [] ∧ dfPathA ≠ dfPathB ∧
    (∀ i ∈ dfPathA, DotFreeIdent i) ∧ (∀ i ∈ dfPathB, DotFreeIdent i) ∧
    ("export namespace " ++ nsPathRender dfPathA ≠
      "export namespace " ++ nsPathRender dfPathB) ∧
    (sJoin (exprChunks optsPlain (TypeExpr.Ref (TypeInfo.Defined
        (DefinedTypeInfo.mk none (TypeName.mk none dfPathA (Ident.mk "Foo") []) dummyExpr)))) ≠
     sJoin (exprChunks optsPlain (TypeExpr.Ref (TypeInfo.Defined
        (DefinedTypeInfo.mk none (TypeName.mk none dfPathB (Ident.mk "Foo") []) dummyExpr))))) :=
  ⟨by decide, by decide, by decide, by decide, by decide,
    namespace_wrapping_and_uniqueness.2.1 dfPathA dfPathB (by decide) (by decide)
      (by decide) (by decide) (by decide),
    namespace_wrapping_and_uniqueness.2.2 optsPlain none dfPathA dfPathB (Ident.mk "Foo") []
      none none dummyExpr dummyExpr (by decide) (by decide) (by decide)⟩

/-! ### Claim C5: output contract of the driver -/

/-- Claim C5: every successful run's output is exactly, in order, the
optional header comment block (comment lines plus one blank line when the
header option is set, nothing when it is `none`), one default-export
statement naming the root namespace, and one exported namespace block named
by the root namespace holding the emitted declarations — and nothing
else. -/
theorem output_contract (fa : FailFn) (env : Env) (opts : DefinitionFileOptions)
    (root : Nat) (s : Nat) (stF : EmitSt)
    (h : writeDefinitionFile fa env opts root = Except.ok (s, stF)) :
    stF.out =
      sJoin (headerChunks opts.header) ++
      (("export default " ++ opts.root_namespace ++ ";\n") ++
       (("export namespace " ++ opts.root_namespace ++ "\x7b\n") ++
        (sJoin (stF.trace.map (declText opts env)) ++ "\x7d\n"))) ∧
    headerChunks none = [] ∧
    (∀ hdr, sJoin (headerChunks (some hdr)) =
      sJoin ((rustLines hdr).map (fun l => "// " ++ l ++ "\n")) ++ "\n") := by
  refine ⟨?_, rfl, ?_⟩
  · obtain ⟨_, _, _, hout, _⟩ := wd_main_facts fa env opts root s stF h
    rw [hout]
    simp [preChunks, sJoin_append, sJoin, str_append_empty, str_append_assoc]
  · intro hdr
    show sJoin (headerLinesChunks (rustLines hdr) ++ ["\n"]) = _
    rw [sJoin_append, headerLines_render]
    simp [sJoin, str_append_empty]

theorem output_contract_witness :
    writeDefinitionFile allOk cycEnv optsPlain 0 = Except.ok (2, cycStF) ∧
    cycStF.out =
      sJoin (headerChunks optsPlain.header) ++
      (("export default " ++ optsPlain.root_namespace ++ ";\n") ++
       (("export namespace " ++ optsPlain.root_namespace ++ "\x7b\n") ++
        (sJoin (cycStF.trace.map (declText optsPlain cycEnv)) ++ "\x7d\n"))) :=
  ⟨cycRun_eq, (output_contract allOk cycEnv optsPlain 0 2 cycStF cycRun_eq).1⟩

/-! ### Claim C6: statistics correctness -/

/-- Claim C6: on every successful run the returned count equals the length
of the duplicate-free emission trace, which holds exactly the Defined
identities reachable from the root (so Native types are never counted), and
the final counter equals the returned count (one increment per emitted
Defined declaration). -/
theorem stats_counts_defined (fa : FailFn) (env : Env) (opts : DefinitionFileOptions)
    (root : Nat) (s : Nat) (stF : EmitSt)
    (h : writeDefinitionFile fa env opts root = Except.ok (s, stF)) :
    s = stF.trace.length ∧ stF.stats = s ∧ stF.trace.Nodup ∧
    (∀ x, x ∈ stF.trace ↔ (Reaches env root x ∧ isDefinedB env x = true)) := by
  obtain ⟨h1, h2, h3, _, h5⟩ := wd_main_facts fa env opts root s stF h
  exact ⟨h3, h5, h1, h2⟩

theorem stats_counts_defined_witness :
    writeDefinitionFile allOk cycEnv optsPlain 0 = Except.ok (2, cycStF) ∧
    2 = cycStF.trace.length ∧ cycStF.stats = 2 :=
  ⟨cycRun_eq, (stats_counts_defined allOk cycEnv optsPlain 0 2 cycStF cycRun_eq).1,
    (stats_counts_defined allOk cycEnv optsPlain 0 2 cycStF cycRun_eq).2.1⟩

/-! ### Claim C7: degenerate union and intersection -/

/-- Claim C7: an empty union emits exactly the token `never` and an empty
intersection exactly the token `any` (one sink write each); a non-empty
union renders `(m1|...|mn)` and a non-empty intersection `(m1&...&mn)`. -/
theorem degenerate_union_intersection :
    (∀ opts fa st, fa st.wix = false →
      emitExpr fa opts (TypeExpr.Union (Union.mk none [])) st =
        Except.ok { st with out := st.out ++ "never", wix := st.wix + 1 } ∧
      emitExpr fa opts (TypeExpr.Intersection (Intersection.mk none [])) st =
        Except.ok { st with out := st.out ++ "any", wix := st.wix + 1 }) ∧
    (∀ opts docs members, members ≠ [] →
      sJoin (exprChunks opts (TypeExpr.Union (Union.mk docs members))) =
        sJoin (docsOptChunks docs) ++
          ("(" ++ (sIntercalate "|" (members.map (renderExpr opts)) ++ ")")) ∧
      sJoin (exprChunks opts (TypeExpr.Intersection (Intersection.mk docs members))) =
        sJoin (docsOptChunks docs) ++
          ("(" ++ (sIntercalate "&" (members.map (renderExpr opts)) ++ ")"))) := by
  constructor
  · intro opts fa st hfa
    constructor
    · have hc : exprChunks opts (TypeExpr.Union (Union.mk none [])) = ["never"] := by
        simp [exprChunks, docsOptChunks]
      have h : emitExpr fa opts (TypeExpr.Union (Union.mk none [])) st =
          (if okWindow fa st.wix
              (exprChunks opts (TypeExpr.Union (Union.mk none []))).length then
            Except.ok { st with
              out := st.out ++ sJoin (exprChunks opts (TypeExpr.Union (Union.mk none [])))
              wix := st.wix + (exprChunks opts (TypeExpr.Union (Union.mk none []))).length }
          else Except.error EmitErr.writeFailed) :=
        emitExpr_char opts (TypeExpr.Union (Union.mk none [])) fa st
      rw [hc] at h
      rw [h]
      simp [okWindow, hfa, sJoin, str_append_empty]
    · have hc : exprChunks opts (TypeExpr.Intersection (Intersection.mk none [])) = ["any"] := by
        simp [exprChunks, docsOptChunks]
      have h : emitExpr fa opts (TypeExpr.Intersection (Intersection.mk none [])) st =
          (if okWindow fa st.wix
              (exprChunks opts (TypeExpr.Intersection (Intersection.mk none []))).length then
            Except.ok { st with
              out := st.out ++
                sJoin (exprChunks opts (TypeExpr.Intersection (Intersection.mk none [])))
              wix := st.wix +
                (exprChunks opts (TypeExpr.Intersection (Intersection.mk none []))).length }
          else Except.error EmitErr.writeFailed) :=
        emitExpr_char opts (TypeExpr.Intersection (Intersection.mk none [])) fa st
      rw [hc] at h
      rw [h]
      simp [okWindow, hfa, sJoin, str_append_empty]
  · intro opts docs members hm
    cases members with
    | nil => exact absurd rfl hm
    | cons e es =>
      constructor
      · simp only [exprChunks, List.isEmpty_cons, Bool.false_eq_true, if_false]
        rw [sJoin_append]
        show _ ++ ("(" ++ sJoin (exprListSepChunks opts "|" (e :: es) true ++ [")"])) = _
        rw [sJoin_append, listSep_true]
        simp [sJoin, str_append_empty, str_append_assoc]
      · simp only [exprChunks, List.isEmpty_cons, Bool.false_eq_true, if_false]
        rw [sJoin_append]
        show _ ++ ("(" ++ sJoin (exprListSepChunks opts "&" (e :: es) true ++ [")"])) = _
        rw [sJoin_append, listSep_true]
        simp [sJoin, str_append_empty, str_append_assoc]

theorem degenerate_union_intersection_witness :
    allOk initSt.wix = false ∧
    ([dummyExpr] ≠ ([] : List TypeExpr)) ∧
    emitExpr allOk optsPlain (TypeExpr.Union (Union.mk none [])) initSt =
      Except.ok { initSt with out := initSt.out ++ "never", wix := initSt.wix + 1 } ∧
    sJoin (exprChunks optsPlain (TypeExpr.Union (Union.mk none [dummyExpr]))) =
      sJoin (docsOptChunks none) ++
        ("(" ++ (sIntercalate "|" ([dummyExpr].map (renderExpr optsPlain)) ++ ")")) :=
  ⟨rfl, by simp,
    (degenerate_union_intersection.1 optsPlain allOk initSt rfl).1,
    (degenerate_union_intersection.2 optsPlain none [dummyExpr] (by simp)).1⟩

/-! ### Claim C8: object field rendering -/

/-- Claim C8: an object renders `\x7b`, then each field in declaration order
as docs (if any), name, `?` iff optional, `:`, its type, `;`, then `\x7d`;
in particular the two-field object `[(a, optional), (b, required)]` renders
`a` (with `?`) before `b` (without); and the emitter writes exactly this
text when all its writes succeed. -/
theorem object_field_rendering :
    (∀ opts docs fields,
      sJoin (exprChunks opts (TypeExpr.Object (Object.mk docs fields))) =
        sJoin (docsOptChunks docs) ++
          ("\x7b" ++ (sJoin (fields.map (fieldRender opts)) ++ "\x7d"))) ∧
    (∀ opts na nb ta tb,
      sJoin (exprChunks opts (TypeExpr.Object (Object.mk none
          [ObjectField.mk none na true ta, ObjectField.mk none nb false tb]))) =
        "\x7b" ++ ((na.name ++ ("?" ++ (":" ++ (renderExpr opts ta ++ ";")))) ++
          ((nb.name ++ (":" ++ (renderExpr opts tb ++ ";"))) ++ "\x7d"))) ∧
    (∀ opts fa st docs fields,
      okWindow fa st.wix
        (exprChunks opts (TypeExpr.Object (Object.mk docs fields))).length = true →
      emitExpr fa opts (TypeExpr.Object (Object.mk docs fields)) st =
        Except.ok { st with
          out := st.out ++ sJoin (exprChunks opts (TypeExpr.Object (Object.mk docs fields)))
          wix := st.wix +
            (exprChunks opts (TypeExpr.Object (Object.mk docs fields))).length }) := by
  have hgen : ∀ opts docs fields,
      sJoin (exprChunks opts (TypeExpr.Object (Object.mk docs fields))) =
        sJoin (docsOptChunks docs) ++
          ("\x7b" ++ (sJoin (fields.map (fieldRender opts)) ++ "\x7d")) := by
    intro opts docs fields
    simp only [exprChunks]
    rw [sJoin_append]
    congr 1
    show "\x7b" ++ sJoin (objectFieldsChunks opts fields ++ ["\x7d"]) = _
    rw [sJoin_append, objectFields_render]
    simp [sJoin, str_append_empty]
  refine ⟨hgen, ?_, ?_⟩
  · intro opts na nb ta tb
    rw [hgen]
    simp [docsOptChunks, fieldRender, sJoin, str_append_empty, str_empty_append,
      str_append_assoc]
  · intro opts fa st docs fields hok
    have h : emitExpr fa opts (TypeExpr.Object (Object.mk docs fields)) st =
        (if okWindow fa st.wix
            (exprChunks opts (TypeExpr.Object (Object.mk docs fields))).length then
          Except.ok { st with
            out := st.out ++ sJoin (exprChunks opts (TypeExpr.Object (Object.mk docs fields)))
            wix := st.wix +
              (exprChunks opts (TypeExpr.Object (Object.mk docs fields))).length }
        else Except.error EmitErr.writeFailed) :=
      emitExpr_char opts (TypeExpr.Object (Object.mk docs fields)) fa st
    rw [h, if_pos hok]

theorem object_field_rendering_witness :
    okWindow allOk initSt.wix
        (exprChunks optsPlain (TypeExpr.Object (Object.mk none []))).length = true ∧
    emitExpr allOk optsPlain (TypeExpr.Object (Object.mk none [])) initSt =
      Except.ok { initSt with
        out := initSt.out ++ sJoin (exprChunks optsPlain (TypeExpr.Object (Object.mk none [])))
        wix := initSt.wix +
          (exprChunks optsPlain (TypeExpr.Object (Object.mk none []))).length } ∧
    sJoin (exprChunks optsPlain (TypeExpr.Object (Object.mk none
        [ObjectField.mk none (Ident.mk "a") true dummyExpr,
         ObjectField.mk none (Ident.mk "b") false dummyExpr]))) =
      "\x7b" ++ (((Ident.mk "a").name ++ ("?" ++ (":" ++ (renderExpr optsPlain dummyExpr ++ ";")))) ++
        (((Ident.mk "b").name ++ (":" ++ (renderExpr optsPlain dummyExpr ++ ";"))) ++ "\x7d")) :=
  ⟨okWindow_allOk _ _,
    object_field_rendering.2.2 optsPlain allOk initSt none [] (okWindow_allOk _ _),
    object_field_rendering.2.1 optsPlain (Ident.mk "a") (Ident.mk "b") dummyExpr dummyExpr⟩

/-! ### Claim C9: errors arise only from sink writes -/

/-- Claim C9: an expression emitter either succeeds or fails with the
propagated sink-write error (no other error category); a whole run on a
wellformed universe likewise returns success or the sink-write error, with
no partial result; and when every write succeeds the run succeeds. -/
theorem errors_only_from_writes :
    (∀ opts e fa st, emitExpr fa opts e st = Except.error EmitErr.writeFailed ∨
      ∃ st2, emitExpr fa opts e st = Except.ok st2) ∧
    (∀ fa env opts root, EnvWF env → root < env.size →
      (writeDefinitionFile fa env opts root = Except.error EmitErr.writeFailed ∨
       ∃ r, writeDefinitionFile fa env opts root = Except.ok r)) ∧
    (∀ env opts root, EnvWF env → root < env.size →
      ∃ r, writeDefinitionFile allOk env opts root = Except.ok r) := by
  refine ⟨?_, ?_, ?_⟩
  · intro opts e fa st
    have h : emitExpr fa opts e st =
        (if okWindow fa st.wix (exprChunks opts e).length then
          Except.ok { st with
            out := st.out ++ sJoin (exprChunks opts e)
            wix := st.wix + (exprChunks opts e).length }
        else Except.error EmitErr.writeFailed) :=
      emitExpr_char opts e fa st
    cases hok : okWindow fa st.wix (exprChunks opts e).length with
    | true =>
      right
      exact ⟨_, by rw [h, if_pos hok]⟩
    | false =>
      left
      rw [h, if_neg (by simp [hok])]
  · intro fa env opts root hwf hroot
    cases hr : writeDefinitionFile fa env opts root with
    | ok r => right; exact ⟨r, rfl⟩
    | error e =>
      cases e with
      | writeFailed => left; rfl
      | fuelOut => exact absurd hr (wd_ne_fuelOut fa env opts root hwf hroot)
  · intro env opts root hwf hroot
    exact wd_allOk_ok env opts root hwf hroot

theorem errors_only_from_writes_witness :
    EnvWF acyEnv ∧ 0 < acyEnv.size ∧
    (writeDefinitionFile allOk acyEnv optsPlain 0 = Except.error EmitErr.writeFailed ∨
     ∃ r, writeDefinitionFile allOk acyEnv optsPlain 0 = Except.ok r) ∧
    (∃ r, writeDefinitionFile allOk acyEnv optsPlain 0 = Except.ok r) :=
  ⟨by decide, by decide,
    errors_only_from_writes.2.1 allOk acyEnv optsPlain 0 (by decide) (by decide),
    errors_only_from_writes.2.2 acyEnv optsPlain 0 (by decide) (by decide)⟩

/-! ### Claim C10: statistics are discarded on write failure -/

/-- Claim C10: against any failing sink the run returns the `Stats` value
(with the very same final state as the all-successful run) iff every write
of the run, up to and including the closing brace, succeeds; if any write in
the run's window fails, the caller receives only the write error and no
count. -/
theorem stats_iff_all_writes_succeed (env : Env) (opts : DefinitionFileOptions)
    (root : Nat) (s0 : Nat) (stF0 : EmitSt)
    (h : writeDefinitionFile allOk env opts root = Except.ok (s0, stF0)) (fa : FailFn) :
    (writeDefinitionFile fa env opts root = Except.ok (s0, stF0) ↔
      ∀ i, i < stF0.wix → fa i = false) ∧
    ((∃ i, i < stF0.wix ∧ fa i = true) →
      writeDefinitionFile fa env opts root = Except.error EmitErr.writeFailed) := by
  have hsim := wd_simulation env opts root s0 stF0 h fa
  constructor
  · constructor
    · intro hok
      rw [hsim] at hok
      cases hw : okWindow fa 0 stF0.wix with
      | true =>
        intro i hi
        have hz := (okWindow_iff fa stF0.wix 0).mp hw i hi
        rw [Nat.zero_add] at hz
        exact hz
      | false =>
        rw [hw] at hok
        simp at hok
    · intro hall
      have hcond : okWindow fa 0 stF0.wix = true :=
        (okWindow_iff fa stF0.wix 0).mpr
          (fun i hi => by rw [Nat.zero_add]; exact hall i hi)
      rw [hsim, if_pos hcond]
  · rintro ⟨i, hi, htrue⟩
    have hw : okWindow fa 0 stF0.wix = false := by
      cases hw2 : okWindow fa 0 stF0.wix with
      | false => rfl
      | true =>
        have hz := (okWindow_iff fa stF0.wix 0).mp hw2 i hi
        rw [Nat.zero_add] at hz
        rw [hz] at htrue
        cases htrue
    rw [hsim, if_neg (by simp [hw])]

theorem stats_iff_all_writes_succeed_witness :
    writeDefinitionFile allOk cycEnv optsPlain 0 = Except.ok (2, cycStF) ∧
    (writeDefinitionFile allOk cycEnv optsPlain 0 = Except.ok (2, cycStF) ↔
      ∀ i, i < cycStF.wix → allOk i = false) :=
  ⟨cycRun_eq,
    (stats_iff_all_writes_succeed cycEnv optsPlain 0 2 cycStF cycRun_eq allOk).1⟩

end TsTypeDef
